import Mathlib

/-!
LRUCache (Datastructures/LRUCache.hpp)

A shallow embedding of the pointer-based LRU cache.

* A raw `LRUCacheNode*` is an `Option Nat`: `none` is `nullptr`, `some a` is the
  address `a` of a node in the node store `heap`.
* `new LRUCacheNode(..)` appends a node to the store; the cache never frees a node
  outside its destructor.
* A `std::shared_ptr<T>` is an `Option T` (`none` is the null handle).
* `std::unordered_map<Key, LRUCacheNode*>` is an association list with one entry
  per key; `size()` is its length.
* Dereferencing a null or unallocated pointer is undefined behaviour; every
  operation returns `Option`, and `none` stands for such a dereference.
-/

namespace LRU

variable {Key T : Type}

/-- The node of the recency list: `key`, `data`, `prev`, `next`. -/
structure LRUCacheNode (Key T : Type) where
  key : Key
  data : Option T
  prev : Option Nat
  next : Option Nat
deriving DecidableEq, Repr

/-- The cache object: the four members of the class and the node store. -/
structure LRUCache (Key T : Type) where
  mHead : Option Nat
  mTail : Option Nat
  iMaxCapacity : Nat
  mNodeMap : List (Key × Nat)
  heap : List (LRUCacheNode Key T)
deriving DecidableEq, Repr

/-- The largest value of a 32-bit `int`. -/
def INT_MAX : Nat := 2147483647

/-! ## The node map -/

/-- The lookup `mNodeMap.find(k)` (and the read `mNodeMap[k]` of a present key). -/
def mapFind [DecidableEq Key] : List (Key × Nat) → Key → Option Nat
  | [], _ => none
  | e :: m, k => if e.1 = k then some e.2 else mapFind m k

/-- The removal `mNodeMap.erase(k)`. -/
def mapErase [DecidableEq Key] : List (Key × Nat) → Key → List (Key × Nat)
  | [], _ => []
  | e :: m, k => if e.1 = k then mapErase m k else e :: mapErase m k

/-- The assignment `mNodeMap[k] = n`: overwrite the entry of `k`, or add one. -/
def mapAssign [DecidableEq Key] : List (Key × Nat) → Key → Nat → List (Key × Nat)
  | [], k, n => [(k, n)]
  | e :: m, k, n => if e.1 = k then (k, n) :: m else e :: mapAssign m k n

/-! ## The node store -/

/-- The allocation `new LRUCacheNode(..)`: the new node gets the next free address,
`heap.length`. -/
def alloc (heap : List (LRUCacheNode Key T)) (n : LRUCacheNode Key T) :
    List (LRUCacheNode Key T) :=
  heap ++ [n]

/-- Overwrite the node at address `a`. -/
def store (heap : List (LRUCacheNode Key T)) (a : Nat) (n : LRUCacheNode Key T) :
    List (LRUCacheNode Key T) :=
  heap.set a n

/-- The dereference `*p`. -/
def readNode (heap : List (LRUCacheNode Key T)) : Option Nat → Option (LRUCacheNode Key T)
  | none => none
  | some a => heap[a]?

/-- The store `p->field = ..`, as an update `f` of the node at `p`. -/
def writeNode (heap : List (LRUCacheNode Key T)) (p : Option Nat)
    (f : LRUCacheNode Key T → LRUCacheNode Key T) : Option (List (LRUCacheNode Key T)) :=
  match p with
  | none => none
  | some a =>
    match heap[a]? with
    | none => none
    | some n => some (store heap a (f n))

/-! ## The operations -/

/-- The constructor `LRUCache(int _capacity)`: the assertion, then the four members.
The `int` is stored into the `uint32_t` member `iMaxCapacity`. -/
def LRUCache.new (_capacity : Int) : Option (LRUCache Key T) :=
  if _capacity > 0 then
    some { mHead := none, mTail := none, iMaxCapacity := (_capacity % 2 ^ 32).toNat,
           mNodeMap := [], heap := [] }
  else none

/-- The private member `evict()`: unlink the tail, erase its key, return it. -/
def evict [DecidableEq Key] (c : LRUCache Key T) : Option (Option Nat × LRUCache Key T) := do
  -- auto lru = mTail;
  let lru := c.mTail
  -- if (mTail->prev != nullptr) { mTail->prev->next = nullptr; } else { mHead = nullptr; }
  let t ← readNode c.heap c.mTail
  let c1 ← (match t.prev with
    | some p => do
      let h ← writeNode c.heap (some p) (fun n => { n with next := none })
      pure { c with heap := h }
    | none => pure { c with mHead := none })
  -- mTail = mTail->prev;
  let t1 ← readNode c1.heap c1.mTail
  let c2 := { c1 with mTail := t1.prev }
  -- mNodeMap.erase(lru->key);
  let l ← readNode c2.heap lru
  let c3 := { c2 with mNodeMap := mapErase c2.mNodeMap l.key }
  -- return lru;
  pure (lru, c3)

/-- The member `find(_key)`: the returned handle and the cache afterwards. -/
def find [DecidableEq Key] (c : LRUCache Key T) (_key : Key) :
    Option (Option T × LRUCache Key T) :=
  -- if (mNodeMap.find(_key) == mNodeMap.end()) { return nullptr; }
  match mapFind c.mNodeMap _key with
  | none => some (none, c)
  | some a =>
    -- auto node = mNodeMap[_key];
    let node : Option Nat := some a
    -- if (node == mHead) { return node->data; }
    if node = c.mHead then do
      let n ← readNode c.heap node
      pure (n.data, c)
    else do
      -- if (node == mTail) { mTail = node->prev; } else { node->next->prev = node->prev; }
      let c1 ← (if node = c.mTail then do
          let n ← readNode c.heap node
          pure { c with mTail := n.prev }
        else do
          let n ← readNode c.heap node
          let h ← writeNode c.heap n.next (fun m => { m with prev := n.prev })
          pure { c with heap := h })
      -- node->prev->next = node->next;
      let n1 ← readNode c1.heap node
      let h2 ← writeNode c1.heap n1.prev (fun m => { m with next := n1.next })
      -- node->prev = nullptr;
      let h3 ← writeNode h2 node (fun m => { m with prev := none })
      -- node->next = mHead;
      let h4 ← writeNode h3 node (fun m => { m with next := c1.mHead })
      -- mHead->prev = node;
      let h5 ← writeNode h4 c1.mHead (fun m => { m with prev := node })
      -- mHead = node;
      let c2 := { c1 with heap := h5, mHead := node }
      -- return node->data;
      let n5 ← readNode c2.heap node
      pure (n5.data, c2)

/-- The member `insert(_key, _data)`. -/
def insert [DecidableEq Key] (c : LRUCache Key T) (_key : Key) (_data : Option T) :
    Option (LRUCache Key T) := do
  -- if (mNodeMap.size() >= iMaxCapacity) { newNode = evict(); newNode->data = ..; newNode->key = ..; }
  -- else { newNode = new LRUCacheNode<Key, T>(_key, _data); }
  let (newNode, c1) ← (if c.mNodeMap.length ≥ c.iMaxCapacity then do
      let (lru, c0) ← evict c
      let h ← writeNode c0.heap lru (fun n => { n with data := _data })
      let h1 ← writeNode h lru (fun n => { n with key := _key })
      pure (lru, { c0 with heap := h1 })
    else
      pure (some c.heap.length,
        { c with heap := alloc c.heap { key := _key, data := _data, prev := none, next := none } }))
  let c2 ← (if c1.mHead = none then
      -- mHead = newNode; mTail = newNode;
      pure { c1 with mHead := newNode, mTail := newNode }
    else do
      -- newNode->next = mHead;
      let h ← writeNode c1.heap newNode (fun n => { n with next := c1.mHead })
      -- mHead->prev = newNode;
      let h1 ← writeNode h c1.mHead (fun n => { n with prev := newNode })
      -- mHead = newNode;
      -- newNode->prev = nullptr;
      let h2 ← writeNode h1 newNode (fun n => { n with prev := none })
      pure { c1 with heap := h2, mHead := newNode })
  -- mNodeMap[_key] = newNode;
  let a ← newNode
  pure { c2 with mNodeMap := mapAssign c2.mNodeMap _key a }

/-! ## Call sequences -/

/-- A call of one of the two public members. -/
inductive Op (Key T : Type) where
  | insert (k : Key) (v : Option T)
  | find (k : Key)
deriving DecidableEq, Repr

/-- One call; the handle `find` returns is dropped. -/
def step [DecidableEq Key] (c : LRUCache Key T) : Op Key T → Option (LRUCache Key T)
  | Op.insert k v => insert c k v
  | Op.find k => (find c k).map Prod.snd

/-- A sequence of calls, from left to right. -/
def run [DecidableEq Key] (c : LRUCache Key T) : List (Op Key T) → Option (LRUCache Key T)
  | [] => some c
  | op :: ops => (step c op).bind (fun c1 => run c1 ops)

/-- The handle `find(k)` returns (`none` of the outer `Option`: undefined behaviour). -/
def lookup [DecidableEq Key] (c : LRUCache Key T) (k : Key) : Option (Option T) :=
  (find c k).map Prod.fst

/-! ## Observing the recency list -/

/-- Follow `next` from `p`, at most `fuel` nodes. -/
def listFrom (heap : List (LRUCacheNode Key T)) : Nat → Option Nat → List Nat
  | 0, _ => []
  | _ + 1, none => []
  | fuel + 1, some a =>
    a :: (match heap[a]? with
      | none => []
      | some n => listFrom heap fuel n.next)

/-- The addresses of the recency list, head to tail. -/
def LRUCache.toList (c : LRUCache Key T) : List Nat :=
  listFrom c.heap c.heap.length c.mHead

/-- The `(key, data)` pairs of the recency list, head to tail. -/
def LRUCache.entries (c : LRUCache Key T) : List (Key × Option T) :=
  c.toList.filterMap (fun a => (c.heap[a]?).map (fun n => (n.key, n.data)))

/-- The keys of the index. -/
def LRUCache.keys (c : LRUCache Key T) : List Key :=
  c.mNodeMap.map Prod.fst

/-! ## Well-formedness of the recency list -/

/-- The pointer after the segment `l`: its first address, or `q` when it is empty. -/
def hd (l : List Nat) (q : Option Nat) : Option Nat :=
  match l with
  | [] => q
  | b :: _ => some b

/-- The pointer before what follows `l`: its last address, or `p` when it is empty. -/
def lst (p : Option Nat) (l : List Nat) : Option Nat :=
  match l.getLast? with
  | none => p
  | some a => some a

/-- The nodes at the addresses `l` are linked in this order: the first has `prev = p`,
the last has `next = q`. -/
def Seg (heap : List (LRUCacheNode Key T)) : Option Nat → List Nat → Option Nat → Prop
  | _, [], _ => True
  | p, a :: l, q =>
    (∃ n, heap[a]? = some n ∧ n.prev = p ∧ n.next = hd l q) ∧ Seg heap (some a) l q

/-- The `(key, data)` pair stored at address `a`. -/
def entryAt (heap : List (LRUCacheNode Key T)) (a : Nat) : Option (Key × Option T) :=
  (heap[a]?).map (fun n => (n.key, n.data))

/-- The recency list of `c` is the doubly linked list of the addresses `l`, head to tail. -/
structure Shape (c : LRUCache Key T) (l : List Nat) : Prop where
  nodup : l.Nodup
  seg : Seg c.heap none l none
  head : c.mHead = l.head?
  tail : c.mTail = l.getLast?

/-- The state invariant that every call sequence keeps, repeated keys included: the list
is well linked, the index has one entry per key, and every index entry points to a list
node that carries its key. -/
structure WF [DecidableEq Key] (c : LRUCache Key T) (l : List Nat) : Prop where
  shape : Shape c l
  map_mem : ∀ k a, mapFind c.mNodeMap k = some a →
    a ∈ l ∧ ∃ d, entryAt c.heap a = some (k, d)
  map_nodup : (c.mNodeMap.map Prod.fst).Nodup
  cap_pos : 0 < c.iMaxCapacity

/-- The call sequence `ops` on a cache constructed with capacity `cap`. -/
def runFrom [DecidableEq Key] (cap : Int) (ops : List (Op Key T)) : Option (LRUCache Key T) :=
  (LRUCache.new cap).bind (fun c => run c ops)

/-- The state `s` is reached from a freshly constructed cache of capacity `cap` (an `int`)
by some sequence of `insert` and `find` calls. -/
def Reachable [DecidableEq Key] (cap : Int) (s : LRUCache Key T) : Prop :=
  cap ≤ INT_MAX ∧ ∃ ops : List (Op Key T), runFrom cap ops = some s

/-- The value of the most recent `insert(k, _)` of a call sequence, if there is one. -/
def lastInsert [DecidableEq Key] : List (Op Key T) → Key → Option (Option T)
  | [], _ => none
  | Op.insert j v :: ops, k =>
    match lastInsert ops k with
    | some r => some r
    | none => if j = k then some v else none
  | Op.find _ :: ops, k => lastInsert ops k

/-- The index entries carry the values recorded by `g`. -/
def Hist [DecidableEq Key] (c : LRUCache Key T) (g : Key → Option (Option T)) : Prop :=
  ∀ j a, mapFind c.mNodeMap j = some a → ∃ d, entryAt c.heap a = some (j, d) ∧ g j = some d

section
variable [DecidableEq Key]

/-- The invariant of call sequences whose inserted keys are new: on top of `WF`, every
list node is the one the index maps its key to, and the index has as many keys as the
list has nodes, at most the capacity. -/
structure Clean (c : LRUCache Key T) (l : List Nat) : Prop where
  wf : WF c l
  list_mem : ∀ a ∈ l, ∃ k d, entryAt c.heap a = some (k, d) ∧ mapFind c.mNodeMap k = some a
  size : c.mNodeMap.length = l.length
  bound : c.mNodeMap.length ≤ c.iMaxCapacity

end

/-! ## More invariants, fresh-key call sequences and the reference model -/

/-- Follow `prev` from `p`, at most `fuel` nodes. -/
def listBack (heap : List (LRUCacheNode Key T)) : Nat → Option Nat → List Nat
  | 0, _ => []
  | _ + 1, none => []
  | fuel + 1, some a =>
    a :: (match heap[a]? with
      | none => []
      | some n => listBack heap fuel n.prev)

/-- The addresses of the recency list, tail to head. -/
def LRUCache.toListRev (c : LRUCache Key T) : List Nat :=
  listBack c.heap c.heap.length c.mTail

section
variable [DecidableEq Key]

/-- Two more facts that every call sequence keeps: every allocated node is in the recency
list, and the index is not empty once the list is not. -/
structure Tight (c : LRUCache Key T) (l : List Nat) : Prop where
  wf : WF c l
  cover : l.length = c.heap.length
  nonempty : l ≠ [] → c.mNodeMap ≠ []

/-- Every `insert` of the call sequence, run from `c`, uses a key that is not in the index
at the time of the call. -/
def freshOps (c : LRUCache Key T) : List (Op Key T) → Bool
  | [] => true
  | Op.insert k v :: ops =>
    (mapFind c.mNodeMap k).isNone &&
      (match insert c k v with
        | some c1 => freshOps c1 ops
        | none => true)
  | Op.find k :: ops =>
    match find c k with
    | some p => freshOps p.2 ops
    | none => true

/-- The same, on a cache constructed with capacity `cap`. -/
def freshFrom (cap : Int) (ops : List (Op Key T)) : Bool :=
  match (LRUCache.new cap : Option (LRUCache Key T)) with
  | some c => freshOps c ops
  | none => true

/-- The state `s` is reached from a fresh cache of capacity `cap` by a call sequence in
which every `insert` uses a key that is not in the index at the time of the call. -/
def FreshReachable (cap : Int) (s : LRUCache Key T) : Prop :=
  cap ≤ INT_MAX ∧ ∃ ops : List (Op Key T), freshFrom cap ops = true ∧ runFrom cap ops = some s

/-- The reference model, `find`: move the pair with key `k` to the front and return its
value, or return not-found and change nothing. -/
def modelFind (m : List (Key × Option T)) (k : Key) : Option T × List (Key × Option T) :=
  match m.find? (fun e => decide (e.1 = k)) with
  | some e => (e.2, e :: m.filter (fun x => decide (x.1 ≠ k)))
  | none => (none, m)

/-- The reference model, `insert` of a key that is not in the list: prepend the pair, then
drop the last pair if the length exceeds `N`. -/
def modelInsert (N : Nat) (m : List (Key × Option T)) (k : Key) (v : Option T) :
    List (Key × Option T) :=
  if ((k, v) :: m).length > N then ((k, v) :: m).dropLast else (k, v) :: m

/-- What a call shows: the handle a `find` returns (`none` for an `insert`) and the pairs
of the list after the call. -/
abbrev Obs (Key T : Type) := Option (Option T) × List (Key × Option T)

/-- The observations of a call sequence on the pointer-based cache. -/
def runTrace (c : LRUCache Key T) : List (Op Key T) → Option (List (Obs Key T))
  | [] => some []
  | Op.insert k v :: ops =>
    (insert c k v).bind (fun c1 => (runTrace c1 ops).map (fun t => (none, c1.entries) :: t))
  | Op.find k :: ops =>
    (find c k).bind (fun p => (runTrace p.2 ops).map (fun t => (some p.1, p.2.entries) :: t))

/-- The observations of a call sequence on the reference model. -/
def modelTrace (N : Nat) (m : List (Key × Option T)) : List (Op Key T) → List (Obs Key T)
  | [] => []
  | Op.insert k v :: ops =>
    (none, modelInsert N m k v) :: modelTrace N (modelInsert N m k v) ops
  | Op.find k :: ops =>
    (some (modelFind m k).1, (modelFind m k).2) :: modelTrace N (modelFind m k).2 ops

end

/-! ## Concrete caches used as witnesses -/

/-- The seven inserts of `main`, on a cache of capacity 5. -/
def demoPairs : List (String × Option String) :=
  [("1", some "1"), ("2", some "2"), ("3", some "3"), ("4", some "4"), ("5", some "5"),
   ("6", some "6"), ("7", some "7")]

/-- The cache of capacity 3 after `insert(1, 10)`, `insert(2, 20)`, `insert(3, 30)`. -/
def demoFull : LRUCache Nat Nat :=
  { mHead := some 2, mTail := some 0, iMaxCapacity := 3,
    mNodeMap := [(1, 0), (2, 1), (3, 2)],
    heap := [{ key := 1, data := some 10, prev := some 1, next := none },
             { key := 2, data := some 20, prev := some 2, next := some 0 },
             { key := 3, data := some 30, prev := none, next := some 1 }] }

/-- The calls that lead to `demoFull`. -/
def demoFullOps : List (Op Nat Nat) :=
  [Op.insert 1 (some 10), Op.insert 2 (some 20), Op.insert 3 (some 30)]

/-- A call sequence that inserts key 1 twice. -/
def demoRepeatOps : List (Op Nat Nat) :=
  [Op.insert 1 (some 10), Op.insert 1 (some 11), Op.insert 2 (some 20)]

/-- The cache of capacity 3 after `insert(1, 10)`. -/
def demoSmall : LRUCache Nat Nat :=
  { mHead := some 0, mTail := some 0, iMaxCapacity := 3,
    mNodeMap := [(1, 0)],
    heap := [{ key := 1, data := some 10, prev := none, next := none }] }

/-! ## Lemmas on the node map -/

section MapLemmas
variable [DecidableEq Key]

theorem mapFind_eq_none (m : List (Key × Nat)) (k : Key) :
    mapFind m k = none ↔ k ∉ m.map Prod.fst := by
  induction m with
  | nil => simp [mapFind]
  | cons e m ih =>
    by_cases h : e.1 = k
    · simp [mapFind, h]
    · simp only [mapFind, if_neg h, ih, List.map_cons, List.mem_cons, not_or]
      constructor
      · intro h1
        exact ⟨fun hc => h hc.symm, h1⟩
      · intro h1
        exact h1.2

theorem mapFind_mapAssign (m : List (Key × Nat)) (k j : Key) (a : Nat) :
    mapFind (mapAssign m k a) j = if j = k then some a else mapFind m j := by
  induction m with
  | nil =>
    by_cases h : j = k
    · simp [mapAssign, mapFind, h]
    · have h1 : ¬ k = j := fun hc => h hc.symm
      simp [mapAssign, mapFind, h, h1]
  | cons e m ih =>
    by_cases he : e.1 = k
    · by_cases h : j = k
      · simp [mapAssign, mapFind, he, h]
      · have h1 : ¬ k = j := fun hc => h hc.symm
        simp [mapAssign, mapFind, he, h, h1]
    · by_cases h : j = k
      · subst h
        simp [mapAssign, mapFind, he, ih]
      · by_cases hj : e.1 = j
        · simp [mapAssign, mapFind, he, h, hj]
        · simp [mapAssign, mapFind, he, h, hj, ih]

theorem mapFind_mapErase (m : List (Key × Nat)) (k j : Key) :
    mapFind (mapErase m k) j = if j = k then none else mapFind m j := by
  induction m with
  | nil => simp [mapErase, mapFind]
  | cons e m ih =>
    by_cases he : e.1 = k
    · by_cases h : j = k
      · subst h
        simpa [mapErase, he] using ih
      · have h1 : ¬ k = j := fun hc => h hc.symm
        simp [mapErase, mapFind, he, ih, h, h1]
    · by_cases h : j = k
      · subst h
        simp [mapErase, mapFind, he, ih]
      · simp [mapErase, mapFind, he, ih, h]

theorem keys_mapAssign (m : List (Key × Nat)) (k : Key) (a : Nat) :
    (mapAssign m k a).map Prod.fst =
      if k ∈ m.map Prod.fst then m.map Prod.fst else m.map Prod.fst ++ [k] := by
  induction m with
  | nil => simp [mapAssign]
  | cons e m ih =>
    by_cases he : e.1 = k
    · simp [mapAssign, he]
    · have h1 : ¬ k = e.1 := fun hc => he hc.symm
      simp only [mapAssign, if_neg he, List.map_cons, ih, List.mem_cons, h1, false_or]
      split <;> simp

theorem keys_mapErase (m : List (Key × Nat)) (k : Key) :
    (mapErase m k).map Prod.fst = (m.map Prod.fst).filter (fun j => decide (j ≠ k)) := by
  induction m with
  | nil => simp [mapErase]
  | cons e m ih =>
    by_cases he : e.1 = k
    · simp [mapErase, he, ih]
    · simp [mapErase, he, ih]

theorem length_mapAssign (m : List (Key × Nat)) (k : Key) (a : Nat) :
    (mapAssign m k a).length = if mapFind m k = none then m.length + 1 else m.length := by
  have h := congrArg List.length (keys_mapAssign m k a)
  rw [List.length_map] at h
  rw [h]
  by_cases hk : k ∈ m.map Prod.fst
  · have h1 : ¬ mapFind m k = none := fun hc => (mapFind_eq_none m k).1 hc hk
    simp [hk, h1]
  · have h1 : mapFind m k = none := (mapFind_eq_none m k).2 hk
    simp [hk, h1]

theorem length_mapErase_le (m : List (Key × Nat)) (k : Key) :
    (mapErase m k).length ≤ m.length := by
  have h := congrArg List.length (keys_mapErase m k)
  rw [List.length_map] at h
  rw [h]
  exact (List.length_filter_le _ _).trans (by simp)

theorem nodup_keys_mapAssign {m : List (Key × Nat)} (h : (m.map Prod.fst).Nodup) (k : Key) (a : Nat) :
    ((mapAssign m k a).map Prod.fst).Nodup := by
  rw [keys_mapAssign]
  split
  · exact h
  · next hk =>
    rw [List.nodup_append]
    refine ⟨h, List.nodup_singleton k, ?_⟩
    intro x hx hx1
    rw [List.mem_singleton] at hx1
    subst hx1
    exact hk hx

theorem nodup_keys_mapErase {m : List (Key × Nat)} (h : (m.map Prod.fst).Nodup) (k : Key) :
    ((mapErase m k).map Prod.fst).Nodup := by
  rw [keys_mapErase]
  exact h.filter _

theorem length_mapErase {m : List (Key × Nat)} (h : (m.map Prod.fst).Nodup) (k : Key) :
    (mapErase m k).length = if mapFind m k = none then m.length else m.length - 1 := by
  induction m with
  | nil => simp [mapErase]
  | cons e m ih =>
    have hnd : e.1 ∉ m.map Prod.fst ∧ (m.map Prod.fst).Nodup := List.nodup_cons.1 h
    by_cases he : e.1 = k
    · have hk : mapFind m k = none := by
        rw [mapFind_eq_none]
        rw [← he]
        exact hnd.1
      have := ih hnd.2
      rw [hk] at this
      simp [mapErase, mapFind, he, this]
    · have := ih hnd.2
      simp only [mapErase, mapFind, if_neg he, List.length_cons, this]
      split
      · rfl
      · next hk =>
        have : 0 < m.length := by
          cases m with
          | nil => simp [mapFind] at hk
          | cons _ _ => simp
        omega

theorem exists_mapFind_of_length_pos {m : List (Key × Nat)} (h : 0 < m.length) :
    ∃ k a, mapFind m k = some a := by
  cases m with
  | nil => simp at h
  | cons e m => exact ⟨e.1, e.2, by simp [mapFind]⟩

end MapLemmas

/-! ## Lemmas on linked segments -/

theorem Seg_cons (heap : List (LRUCacheNode Key T)) (p q : Option Nat) (a : Nat) (l : List Nat) :
    Seg heap p (a :: l) q ↔
      (∃ n, heap[a]? = some n ∧ n.prev = p ∧ n.next = hd l q) ∧ Seg heap (some a) l q :=
  Iff.rfl

theorem hd_append (l1 l2 : List Nat) (q : Option Nat) : hd (l1 ++ l2) q = hd l1 (hd l2 q) := by
  cases l1 <;> rfl

theorem lst_cons (p : Option Nat) (a : Nat) (l : List Nat) : lst p (a :: l) = lst (some a) l := by
  cases l with
  | nil => rfl
  | cons b l =>
    unfold lst
    rw [List.getLast?_cons_cons]
    cases hc : (b :: l).getLast? with
    | none => simp at hc
    | some x => rfl

theorem Seg_append (heap : List (LRUCacheNode Key T)) (l1 l2 : List Nat) (p q : Option Nat) :
    Seg heap p (l1 ++ l2) q ↔ Seg heap p l1 (hd l2 q) ∧ Seg heap (lst p l1) l2 q := by
  induction l1 generalizing p with
  | nil => simp [Seg, lst]
  | cons a l1 ih =>
    rw [List.cons_append, Seg_cons, Seg_cons, ih, hd_append, lst_cons]
    tauto

theorem Seg_mem {heap : List (LRUCacheNode Key T)} {l : List Nat} {p q : Option Nat}
    (h : Seg heap p l q) {b : Nat} (hb : b ∈ l) : ∃ n, heap[b]? = some n := by
  induction l generalizing p with
  | nil => simp at hb
  | cons a l ih =>
    rcases List.mem_cons.1 hb with rfl | hb
    · obtain ⟨⟨n, hn, _⟩, _⟩ := h
      exact ⟨n, hn⟩
    · exact ih h.2 hb

theorem Seg_head_prev {heap : List (LRUCacheNode Key T)} {a : Nat} {l : List Nat} {p q : Option Nat}
    (h : Seg heap p (a :: l) q) {n : LRUCacheNode Key T} (hn : heap[a]? = some n) : n.prev = p := by
  obtain ⟨⟨n', hn', hp, _⟩, _⟩ := h
  rw [hn] at hn'
  cases hn'
  exact hp

theorem Seg_relink {heap heap1 : List (LRUCacheNode Key T)} {l : List Nat} {p q : Option Nat}
    (p1 q1 : Option Nat) (hnd : l.Nodup) (h : Seg heap p l q)
    (hpt : ∀ b ∈ l, ∀ n, heap[b]? = some n → ∃ n1, heap1[b]? = some n1 ∧
      n1.prev = (if l.head? = some b then p1 else n.prev) ∧
      n1.next = (if l.getLast? = some b then q1 else n.next)) :
    Seg heap1 p1 l q1 := by
  induction l generalizing p p1 with
  | nil => trivial
  | cons a l ih =>
    obtain ⟨⟨n, hn, hp, hq⟩, hrest⟩ := h
    have hal : a ∉ l := (List.nodup_cons.1 hnd).1
    obtain ⟨n1, hn1, hp1, hq1⟩ := hpt a (List.mem_cons_self a l) n hn
    refine ⟨⟨n1, hn1, by simpa using hp1, ?_⟩, ?_⟩
    · cases l with
      | nil => simpa [hd] using hq1
      | cons b l =>
        have hne : (a :: b :: l).getLast? ≠ some a := by
          rw [List.getLast?_cons_cons]
          intro hc
          exact hal (List.mem_of_getLast?_eq_some hc)
        rw [if_neg hne, hq] at hq1
        simpa [hd] using hq1
    · apply ih (some a) (List.nodup_cons.1 hnd).2 hrest
      intro b hb n hn
      have hba : a ≠ b := fun hc => hal (hc ▸ hb)
      obtain ⟨n1, hn1, hp1, hq1⟩ := hpt b (List.mem_cons_of_mem a hb) n hn
      refine ⟨n1, hn1, ?_, ?_⟩
      · have : ¬ (a :: l).head? = some b := by simpa using hba
        rw [if_neg this] at hp1
        rw [hp1]
        split
        · next hh =>
          cases l with
          | nil => simp at hh
          | cons c l =>
            simp at hh
            subst hh
            exact Seg_head_prev hrest hn
        · rfl
      · cases l with
        | nil => simp at hb
        | cons c l =>
          rw [List.getLast?_cons_cons] at hq1
          exact hq1

/-! ## Reading the node store after a write -/

theorem getElem?_store (heap : List (LRUCacheNode Key T)) (a b : Nat) (x : LRUCacheNode Key T) :
    (store heap a x)[b]? = if b = a then (heap[a]?).map (fun _ => x) else heap[b]? := by
  unfold store
  rw [List.getElem?_set]
  by_cases h : a = b
  · subst h
    by_cases h1 : a < heap.length
    · simp [h1]
    · simp [h1, List.getElem?_eq_none (not_lt.1 h1)]
  · have h1 : ¬ b = a := fun hc => h hc.symm
    simp [h, h1]

theorem length_store (heap : List (LRUCacheNode Key T)) (a : Nat) (x : LRUCacheNode Key T) :
    (store heap a x).length = heap.length := by
  simp [store]

theorem getElem?_alloc (heap : List (LRUCacheNode Key T)) (b : Nat) (x : LRUCacheNode Key T) :
    (alloc heap x)[b]? = if b = heap.length then some x else heap[b]? := by
  unfold alloc
  by_cases h : b = heap.length
  · subst h
    simp
  · rw [if_neg h]
    rcases Nat.lt_or_gt_of_ne h with h1 | h1
    · exact List.getElem?_append_left h1
    · rw [List.getElem?_eq_none (by simp; omega), List.getElem?_eq_none (by omega)]

theorem length_alloc (heap : List (LRUCacheNode Key T)) (x : LRUCacheNode Key T) :
    (alloc heap x).length = heap.length + 1 := by
  simp [alloc]

theorem Seg_lt {heap : List (LRUCacheNode Key T)} {l : List Nat} {p q : Option Nat}
    (h : Seg heap p l q) {b : Nat} (hb : b ∈ l) : b < heap.length := by
  obtain ⟨n, hn⟩ := Seg_mem h hb
  exact (List.getElem?_eq_some_iff.1 hn).1

theorem Seg_last_next {heap : List (LRUCacheNode Key T)} {l : List Nat} {p q : Option Nat}
    (h : Seg heap p l q) {b : Nat} (hb : l.getLast? = some b) {n : LRUCacheNode Key T}
    (hn : heap[b]? = some n) : n.next = q := by
  induction l generalizing p with
  | nil => simp at hb
  | cons a l ih =>
    cases l with
    | nil =>
      simp at hb
      subst hb
      obtain ⟨⟨n1, hn1, _, hq⟩, _⟩ := h
      rw [hn] at hn1
      cases hn1
      exact hq
    | cons c l =>
      rw [List.getLast?_cons_cons] at hb
      exact ih h.2 hb

theorem insert_alloc [DecidableEq Key] {c : LRUCache Key T} {l : List Nat} (hs : Shape c l)
    (k : Key) (v : Option T) (hlt : c.mNodeMap.length < c.iMaxCapacity) :
    ∃ c1, insert c k v = some c1 ∧ Shape c1 (c.heap.length :: l) ∧
      c1.mNodeMap = mapAssign c.mNodeMap k c.heap.length ∧
      c1.iMaxCapacity = c.iMaxCapacity ∧
      c1.heap.length = c.heap.length + 1 ∧
      entryAt c1.heap c.heap.length = some (k, v) ∧
      ∀ b, b < c.heap.length → entryAt c1.heap b = entryAt c.heap b := by
  have hge : ¬ c.mNodeMap.length ≥ c.iMaxCapacity := not_le.2 hlt
  have hfresh : c.heap.length ∉ l := fun hc => lt_irrefl _ (Seg_lt hs.seg hc)
  cases l with
  | nil =>
    have hh : c.mHead = none := hs.head
    refine ⟨_, by simp [insert, hge, hh]; rfl, ?_⟩
    refine ⟨⟨by simp, ?_, rfl, rfl⟩, rfl, rfl, by simp [length_alloc], by simp [entryAt, getElem?_alloc], ?_⟩
    · simp [Seg, hd, getElem?_alloc]
    · intro b hb
      simp [entryAt, getElem?_alloc, Nat.ne_of_lt hb]
  | cons h l =>
    have hh : c.mHead = some h := hs.head
    obtain ⟨⟨nh, hnh, hp, hq⟩, hrest⟩ := hs.seg
    have hlen : h < c.heap.length := (List.getElem?_eq_some_iff.1 hnh).1
    have hne : h ≠ c.heap.length := Nat.ne_of_lt hlen
    refine ⟨_, by simp [insert, hge, hh, writeNode, getElem?_store, getElem?_alloc, hnh, hne, hne.symm]; rfl, ?_⟩
    refine ⟨⟨List.nodup_cons.2 ⟨hfresh, hs.nodup⟩, ?_, rfl, ?_⟩, rfl, rfl, by simp [length_store, length_alloc], by simp [entryAt, getElem?_store, getElem?_alloc, hne, hne.symm], ?_⟩
    · rw [Seg_cons]
      refine ⟨⟨_, by simp [getElem?_store, getElem?_alloc, hne, hne.symm]; rfl, rfl, rfl⟩, ?_⟩
      refine Seg_relink (some c.heap.length) none hs.nodup hs.seg ?_
      intro b hb n hn
      have hbl : b ≠ c.heap.length := Nat.ne_of_lt (Seg_lt hs.seg hb)
      by_cases hbh : b = h
      · subst hbh
        rw [hnh] at hn
        cases hn
        refine ⟨_, by simp [getElem?_store, getElem?_alloc, hne, hne.symm, hnh]; rfl, ?_, ?_⟩
        · simp
        · split
          · next hc => exact Seg_last_next (n := nh) hs.seg hc hnh
          · rfl
      · refine ⟨n, by simp [getElem?_store, getElem?_alloc, hbh, hbl, hn], ?_, ?_⟩
        · simp [Ne.symm hbh]
        · split
          · next hc => exact Seg_last_next hs.seg hc hn
          · rfl
    · have := hs.tail
      rw [this]
      cases l with
      | nil => rfl
      | cons x l => simp [List.getLast?_cons_cons]
    · intro b hb
      by_cases hbh : b = h
      · subst hbh
        simp [entryAt, getElem?_store, getElem?_alloc, hne, hnh]
      · simp [entryAt, getElem?_store, getElem?_alloc, hbh, Nat.ne_of_lt hb]

theorem hd_of_head? {l : List Nat} {h : Nat} (hh : l.head? = some h) (q : Option Nat) :
    hd l q = some h := by
  cases l with
  | nil => simp at hh
  | cons a l =>
    simp at hh
    simp [hd, hh]

theorem getLast?_cons_concat (t p : Nat) (l : List Nat) :
    (t :: (l ++ [p])).getLast? = some p := by
  have h : t :: (l ++ [p]) = (t :: l) ++ [p] := rfl
  rw [h, List.getLast?_append]
  rfl

theorem insert_evict [DecidableEq Key] {c : LRUCache Key T} {l : List Nat} (hs : Shape c l)
    (hl : l ≠ []) (k : Key) (v : Option T) (hge : c.mNodeMap.length ≥ c.iMaxCapacity) :
    ∃ t tn, l.getLast? = some t ∧ c.heap[t]? = some tn ∧ tn.prev = l.dropLast.getLast? ∧
      ∃ c1, insert c k v = some c1 ∧ Shape c1 (t :: l.dropLast) ∧
      c1.mNodeMap = mapAssign (mapErase c.mNodeMap tn.key) k t ∧
      c1.iMaxCapacity = c.iMaxCapacity ∧
      c1.heap.length = c.heap.length ∧
      entryAt c1.heap t = some (k, v) ∧
      (∀ b, b ≠ t → entryAt c1.heap b = entryAt c.heap b) := by
  rcases List.eq_nil_or_concat' l with rfl | ⟨L, t, rfl⟩
  · exact absurd rfl hl
  have hseg := (Seg_append c.heap L [t] none none).1 hs.seg
  obtain ⟨hL, ⟨tn, htn, htp, htq⟩, -⟩ := hseg
  have hnd := List.nodup_append.1 hs.nodup
  have htL : t ∉ L := fun hc => hnd.2.2 hc (List.mem_singleton_self t)
  have htail : c.mTail = some t := by rw [hs.tail]; simp
  simp only [hd] at htq hL
  rw [List.dropLast_concat]
  rcases List.eq_nil_or_concat' L with rfl | ⟨L1, p, rfl⟩
  · -- the list has exactly one node
    have hh : c.mHead = some t := hs.head
    simp only [lst] at htp
    simp at htp
    refine ⟨t, tn, by simp, htn, by simpa using htp, ?_⟩
    refine ⟨_, by simp [insert, hge, evict, htail, readNode, htn, htp, writeNode, getElem?_store]; rfl, ?_⟩
    refine ⟨⟨by simp, ?_, rfl, rfl⟩, rfl, rfl, by simp [length_store], by simp [entryAt, getElem?_store, htn], ?_⟩
    · rw [Seg_cons]
      exact ⟨⟨_, by simp [getElem?_store, htn]; rfl, by rfl, by exact htq⟩, trivial⟩
    · intro b hb
      simp [entryAt, getElem?_store, hb]
  · -- the tail has a predecessor `p`
    have hpl : (L1 ++ [p]).getLast? = some p := by simp
    have htp1 : tn.prev = some p := by rw [htp]; simp [lst]
    obtain ⟨np, hnp⟩ := Seg_mem hL (b := p) (by simp)
    have hpt : p ≠ t := fun hc => htL (hc ▸ (by simp))
    obtain ⟨h, hhd⟩ : ∃ h, (L1 ++ [p]).head? = some h := by
      cases L1 <;> simp
    have hhL : h ∈ L1 ++ [p] := List.mem_of_mem_head? hhd
    obtain ⟨nh, hnh⟩ := Seg_mem hL hhL
    have hht : h ≠ t := fun hc => htL (hc ▸ hhL)
    have hh : c.mHead = some h := by
      rw [hs.head]
      cases L1 <;> simpa using hhd
    refine ⟨t, tn, by simp, htn, by simpa using htp1, ?_⟩
    by_cases hhp : h = p
    · subst hhp
      rw [hnh] at hnp
      cases hnp
      refine ⟨_, by simp [insert, hge, evict, htail, readNode, htn, htp1, writeNode, getElem?_store, hnh, hh, hht, hht.symm]; rfl, ?_⟩
      refine ⟨⟨List.nodup_cons.2 ⟨htL, hnd.1⟩, ?_, rfl, by simp [htp1, getLast?_cons_concat]⟩, rfl, rfl, by simp [length_store],
        by simp [entryAt, getElem?_store, htn, hnh, hht, hht.symm], ?_⟩
      · rw [Seg_cons]
        refine ⟨⟨_, by simp [getElem?_store, htn, hnh, hht, hht.symm]; rfl, by rfl,
          by rw [hd_of_head? hhd]⟩, ?_⟩
        refine Seg_relink (some t) none hnd.1 hL ?_
        intro b hb n hn
        have hbt : b ≠ t := fun hc => htL (hc ▸ hb)
        rw [hhd, hpl]
        by_cases hbh : b = h
        · subst hbh
          rw [hnh] at hn
          cases hn
          exact ⟨_, by simp [getElem?_store, htn, hnh, hht, hht.symm]; rfl, by simp, by simp⟩
        · exact ⟨_, by simp [getElem?_store, htn, hnh, hht, hht.symm, hbt, hbh, hn]; rfl,
            by simp [Ne.symm hbh], by simp [Ne.symm hbh]⟩
      · intro b hb
        by_cases hbh : b = h
        · subst hbh
          simp [entryAt, getElem?_store, htn, hnh, hht, hht.symm]
        · simp [entryAt, getElem?_store, htn, hnh, hht, hht.symm, hb, hbh]
    · refine ⟨_, by simp [insert, hge, evict, htail, readNode, htn, htp1, writeNode, getElem?_store, hnh, hnp, hh, hht, hht.symm, hpt, hpt.symm, hhp, Ne.symm hhp]; rfl, ?_⟩
      refine ⟨⟨List.nodup_cons.2 ⟨htL, hnd.1⟩, ?_, rfl, by simp [htp1, getElem?_store, htn, hnp, hpt, hpt.symm, getLast?_cons_concat]⟩, rfl, rfl,
        by simp [length_store],
        by simp [entryAt, getElem?_store, htn, hnh, hnp, hht, hht.symm, hpt, hpt.symm, hhp, Ne.symm hhp], ?_⟩
      · rw [Seg_cons]
        refine ⟨⟨_, by simp [getElem?_store, htn, hnh, hnp, hht, hht.symm, hpt, hpt.symm, hhp, Ne.symm hhp]; rfl,
          by rfl, by rw [hd_of_head? hhd]⟩, ?_⟩
        refine Seg_relink (some t) none hnd.1 hL ?_
        intro b hb n hn
        have hbt : b ≠ t := fun hc => htL (hc ▸ hb)
        rw [hhd, hpl]
        by_cases hbh : b = h
        · subst hbh
          rw [hnh] at hn
          cases hn
          exact ⟨_, by simp [getElem?_store, htn, hnh, hnp, hht, hht.symm, hpt, hpt.symm, hhp, Ne.symm hhp]; rfl,
            by simp, by simp [Ne.symm hhp]⟩
        · by_cases hbp : b = p
          · subst hbp
            rw [hnp] at hn
            cases hn
            exact ⟨_, by simp [getElem?_store, htn, hnh, hnp, hht, hht.symm, hpt, hpt.symm, hhp, Ne.symm hhp]; rfl,
              by simp [hhp], by simp⟩
          · exact ⟨_, by simp [getElem?_store, htn, hnh, hnp, hht, hht.symm, hpt, hpt.symm, hhp, Ne.symm hhp, hbt, hbh, hbp, hn]; rfl,
              by simp [Ne.symm hbh], by simp [Ne.symm hbp]⟩
      · intro b hb
        by_cases hbh : b = h
        · subst hbh
          simp [entryAt, getElem?_store, htn, hnh, hnp, hht, hht.symm, hpt, hpt.symm, hhp, Ne.symm hhp]
        · by_cases hbp : b = p
          · subst hbp
            simp [entryAt, getElem?_store, htn, hnh, hnp, hht, hht.symm, hpt, hpt.symm, hhp, Ne.symm hhp]
          · simp [entryAt, getElem?_store, htn, hnh, hnp, hht, hht.symm, hpt, hpt.symm, hhp, Ne.symm hhp, hb, hbh, hbp]

theorem getLast?_append_cons (x : List Nat) (b : Nat) (l : List Nat) :
    (x ++ b :: l).getLast? = (b :: l).getLast? := by
  rw [List.getLast?_append]
  cases hc : (b :: l).getLast? with
  | none => simp at hc
  | some y => rfl

theorem head?_append_of_head? {l : List Nat} {h : Nat} (hh : l.head? = some h) (r : List Nat) :
    (l ++ r).head? = some h := by
  cases l with
  | nil => simp at hh
  | cons a l => simpa using hh

theorem find_spec [DecidableEq Key] {c : LRUCache Key T} {l : List Nat} (hs : Shape c l)
    {k : Key} {a : Nat} (hk : mapFind c.mNodeMap k = some a) (ha : a ∈ l) :
    ∃ n, c.heap[a]? = some n ∧ ∃ c1, find c k = some (n.data, c1) ∧
      Shape c1 (a :: l.erase a) ∧
      c1.mNodeMap = c.mNodeMap ∧
      c1.iMaxCapacity = c.iMaxCapacity ∧
      c1.heap.length = c.heap.length ∧
      (∀ b, entryAt c1.heap b = entryAt c.heap b) ∧
      (c.mHead = some a → c1 = c) := by
  obtain ⟨l1, l2, rfl⟩ := List.append_of_mem ha
  have hnd := List.nodup_append.1 hs.nodup
  have hnd2 := List.nodup_cons.1 hnd.2.1
  have hal1 : a ∉ l1 := fun hc => hnd.2.2 hc (List.mem_cons_self a l2)
  have hal2 : a ∉ l2 := hnd2.1
  have hdis : ∀ x, x ∈ l1 → x ∈ l2 → False := fun x h1 h2 => hnd.2.2 h1 (List.mem_cons_of_mem a h2)
  have herase : (l1 ++ a :: l2).erase a = l1 ++ l2 := by
    rw [List.erase_append_right _ hal1, List.erase_cons_head]
  obtain ⟨hL1, hrest⟩ := (Seg_append c.heap l1 (a :: l2) none none).1 hs.seg
  rw [Seg_cons] at hrest
  obtain ⟨⟨n, hn, hnprev, hnnext⟩, hL2⟩ := hrest
  simp only [hd] at hL1
  refine ⟨n, hn, ?_⟩
  rw [herase]
  rcases List.eq_nil_or_concat' l1 with rfl | ⟨L1, p, rfl⟩
  · -- the node is the head
    have hh : c.mHead = some a := hs.head
    exact ⟨c, by simp [find, hk, hh, readNode, hn], by simpa using hs, rfl, rfl, rfl, fun _ => rfl,
      fun _ => rfl⟩
  have hpl : (L1 ++ [p]).getLast? = some p := by simp
  have hnprev1 : n.prev = some p := by rw [hnprev]; simp [lst]
  obtain ⟨np, hnp⟩ := Seg_mem hL1 (b := p) (by simp)
  have hpa : p ≠ a := fun hc => hal1 (hc ▸ (by simp))
  obtain ⟨h, hhd⟩ : ∃ h, (L1 ++ [p]).head? = some h := by
    cases L1 <;> simp
  have hhL : h ∈ L1 ++ [p] := List.mem_of_mem_head? hhd
  obtain ⟨nh, hnh⟩ := Seg_mem hL1 hhL
  have hha : h ≠ a := fun hc => hal1 (hc ▸ hhL)
  have hh : c.mHead = some h := by
    rw [hs.head]
    cases L1 <;> simpa using hhd
  have hh1 : ¬ some a = c.mHead := by
    rw [hh]
    simpa using hha.symm
  cases l2 with
  | nil =>
    have ht : c.mTail = some a := by
      rw [hs.tail]
      simp
    simp only [hd] at hnnext
    by_cases hhp : h = p
    · subst hhp
      rw [hnh] at hnp
      cases hnp
      refine ⟨_, by simp [find, hk, hh, hha, hha.symm, ht, readNode, hn, hnprev1, hnnext, writeNode, getElem?_store, hnh]; rfl, ?_⟩
      rw [List.append_nil]
      refine ⟨⟨List.nodup_cons.2 ⟨hal1, hnd.1⟩, ?_, rfl, by simp [getLast?_cons_concat]⟩, rfl, rfl,
        by simp [length_store], ?_, fun hc => absurd hc.symm hh1⟩
      · rw [Seg_cons]
        refine ⟨⟨_, by simp [getElem?_store, hn, hnh, hha, hha.symm]; rfl, by rfl,
          by rw [hd_of_head? hhd]⟩, ?_⟩
        refine Seg_relink (some a) none hnd.1 hL1 ?_
        intro x hx nx hnx
        have hxa : x ≠ a := fun hc => hal1 (hc ▸ hx)
        rw [hhd, hpl]
        by_cases hxh : x = h
        · subst hxh
          rw [hnh] at hnx
          cases hnx
          exact ⟨_, by simp [getElem?_store, hn, hnh, hha, hha.symm]; rfl, by simp, by simp⟩
        · exact ⟨_, by simp [getElem?_store, hn, hnh, hha, hha.symm, hxa, hxh, hnx]; rfl,
            by simp [Ne.symm hxh], by simp [Ne.symm hxh]⟩
      · intro x
        by_cases hxa : x = a
        · subst hxa
          simp [entryAt, getElem?_store, hn, hnh, hha, hha.symm]
        · by_cases hxh : x = h
          · subst hxh
            simp [entryAt, getElem?_store, hn, hnh, hha, hha.symm]
          · simp [entryAt, getElem?_store, hn, hnh, hha, hha.symm, hxa, hxh]
    · refine ⟨_, by simp [find, hk, hh, hha, hha.symm, ht, readNode, hn, hnprev1, hnnext, writeNode, getElem?_store, hnh, hnp, hpa, hpa.symm, hhp, Ne.symm hhp]; rfl, ?_⟩
      rw [List.append_nil]
      refine ⟨⟨List.nodup_cons.2 ⟨hal1, hnd.1⟩, ?_, rfl, by simp [getLast?_cons_concat]⟩, rfl, rfl,
        by simp [length_store], ?_, fun hc => absurd hc.symm hh1⟩
      · rw [Seg_cons]
        refine ⟨⟨_, by simp [getElem?_store, hn, hnh, hnp, hha, hha.symm, hpa, hpa.symm, hhp, Ne.symm hhp]; rfl, by rfl,
          by rw [hd_of_head? hhd]⟩, ?_⟩
        refine Seg_relink (some a) none hnd.1 hL1 ?_
        intro x hx nx hnx
        have hxa : x ≠ a := fun hc => hal1 (hc ▸ hx)
        rw [hhd, hpl]
        by_cases hxh : x = h
        · subst hxh
          rw [hnh] at hnx
          cases hnx
          exact ⟨_, by simp [getElem?_store, hn, hnh, hnp, hha, hha.symm, hpa, hpa.symm, hhp, Ne.symm hhp]; rfl,
            by simp, by simp [Ne.symm hhp]⟩
        · by_cases hxp : x = p
          · subst hxp
            rw [hnp] at hnx
            cases hnx
            exact ⟨_, by simp [getElem?_store, hn, hnh, hnp, hha, hha.symm, hpa, hpa.symm, hhp, Ne.symm hhp]; rfl,
              by simp [hhp], by simp⟩
          · exact ⟨_, by simp [getElem?_store, hn, hnh, hnp, hha, hha.symm, hpa, hpa.symm, hhp, Ne.symm hhp, hxa, hxh, hxp, hnx]; rfl,
              by simp [Ne.symm hxh], by simp [Ne.symm hxp]⟩
      · intro x
        by_cases hxa : x = a
        · subst hxa
          simp [entryAt, getElem?_store, hn, hnh, hnp, hha, hha.symm, hpa, hpa.symm, hhp, Ne.symm hhp]
        · by_cases hxh : x = h
          · subst hxh
            simp [entryAt, getElem?_store, hn, hnh, hnp, hha, hha.symm, hpa, hpa.symm, hhp, Ne.symm hhp]
          · by_cases hxp : x = p
            · subst hxp
              simp [entryAt, getElem?_store, hn, hnh, hnp, hha, hha.symm, hpa, hpa.symm, hhp, Ne.symm hhp]
            · simp [entryAt, getElem?_store, hn, hnh, hnp, hha, hha.symm, hpa, hpa.symm, hhp, Ne.symm hhp, hxa, hxh, hxp]
  | cons b L2 =>
    obtain ⟨nb, hnb⟩ := Seg_mem hL2 (b := b) (by simp)
    have hba : b ≠ a := fun hc => hal2 (hc ▸ (by simp))
    have hbp : b ≠ p := fun hc => hdis p (by simp) (hc ▸ (by simp))
    have hbh : b ≠ h := fun hc => hdis h hhL (hc ▸ (by simp))
    simp only [hd] at hnnext
    have hlast : (L1 ++ [p] ++ a :: b :: L2).getLast? = (b :: L2).getLast? := by
      have e : L1 ++ [p] ++ a :: b :: L2 = (L1 ++ [p] ++ [a]) ++ b :: L2 := by simp
      rw [e, getLast?_append_cons]
    have hlast1 : (a :: (L1 ++ [p] ++ b :: L2)).getLast? = (b :: L2).getLast? := by
      have e : a :: (L1 ++ [p] ++ b :: L2) = (a :: (L1 ++ [p])) ++ b :: L2 := by simp
      rw [e, getLast?_append_cons]
    have ht : ¬ some a = c.mTail := by
      rw [hs.tail, hlast]
      intro hc
      exact hal2 (List.mem_of_getLast?_eq_some hc.symm)
    have hndl : (L1 ++ [p] ++ b :: L2).Nodup :=
      List.nodup_append.2 ⟨hnd.1, hnd2.2, fun x h1 h2 => hdis x h1 h2⟩
    have hanl : a ∉ L1 ++ [p] ++ b :: L2 := by
      intro hc
      rcases List.mem_append.1 hc with hc | hc
      · exact hal1 hc
      · exact hal2 hc
    have hlst : lst (some a) (L1 ++ [p]) = some p := by simp [lst]
    by_cases hhp : h = p
    · subst hhp
      rw [hnh] at hnp
      cases hnp
      refine ⟨_, by simp [find, hk, hh, hha, hha.symm, ht, readNode, hn, hnprev1, hnnext, writeNode, getElem?_store, hnh, hnb, hha, hha.symm, hba, hba.symm, hbh, hbh.symm]; rfl, ?_⟩
      refine ⟨⟨List.nodup_cons.2 ⟨hanl, hndl⟩, ?_, rfl, by rw [hlast1, ← hlast]; exact hs.tail⟩, rfl, rfl,
        by simp [length_store], ?_, fun hc => absurd hc.symm hh1⟩
      · rw [Seg_cons]
        refine ⟨⟨_, by simp [getElem?_store, hn, hnh, hnb, hha, hha.symm, hba, hba.symm, hbh, hbh.symm]; rfl, by rfl,
          by rw [hd_of_head? (head?_append_of_head? hhd _)]⟩, ?_⟩
        rw [Seg_append, hlst]
        constructor
        · refine Seg_relink (some a) (hd (b :: L2) none) hnd.1 hL1 ?_
          intro x hx nx hnx
          have hxa : x ≠ a := fun hc => hal1 (hc ▸ hx)
          have hxb : x ≠ b := fun hc => hdis x hx (hc ▸ (by simp))
          rw [hhd, hpl]
          by_cases hxh : x = h
          · subst hxh
            rw [hnh] at hnx
            cases hnx
            exact ⟨_, by simp [getElem?_store, hn, hnh, hnb, hha, hha.symm, hba, hba.symm, hbh, hbh.symm]; rfl, by simp, by simp [hd]⟩
          · exact ⟨_, by simp [getElem?_store, hn, hnh, hnb, hha, hha.symm, hba, hba.symm, hbh, hbh.symm, hxa, hxb, hxh, hnx]; rfl,
              by simp [Ne.symm hxh], by simp [Ne.symm hxh]⟩
        · refine Seg_relink (some h) none hnd2.2 hL2 ?_
          intro x hx nx hnx
          have hxa : x ≠ a := fun hc => hal2 (hc ▸ hx)
          have hxh : x ≠ h := fun hc => hdis h hhL (hc ▸ hx)
          by_cases hxb : x = b
          · subst hxb
            rw [hnb] at hnx
            cases hnx
            refine ⟨_, by simp [getElem?_store, hn, hnh, hnb, hha, hha.symm, hba, hba.symm, hbh, hbh.symm]; rfl, by simp, ?_⟩
            split
            · next hc => exact Seg_last_next (n := nb) hL2 hc hnb
            · rfl
          · refine ⟨nx, by simp [getElem?_store, hn, hnh, hnb, hha, hha.symm, hba, hba.symm, hbh, hbh.symm, hxa, hxb, hxh, hnx], by simp [Ne.symm hxb], ?_⟩
            split
            · next hc => exact Seg_last_next hL2 hc hnx
            · rfl
      · intro x
        by_cases hxa : x = a
        · subst hxa
          simp [entryAt, getElem?_store, hn, hnh, hnb, hha, hha.symm, hba, hba.symm, hbh, hbh.symm]
        · by_cases hxh : x = h
          · subst hxh
            simp [entryAt, getElem?_store, hn, hnh, hnb, hha, hha.symm, hba, hba.symm, hbh, hbh.symm]
          · by_cases hxb : x = b
            · subst hxb
              simp [entryAt, getElem?_store, hn, hnh, hnb, hha, hha.symm, hba, hba.symm, hbh, hbh.symm]
            · simp [entryAt, getElem?_store, hn, hnh, hnb, hha, hha.symm, hba, hba.symm, hbh, hbh.symm, hxa, hxh, hxb]
    · refine ⟨_, by simp [find, hk, hh, hha, hha.symm, ht, readNode, hn, hnprev1, hnnext, writeNode, getElem?_store, hnh, hnp, hnb, hha, hha.symm, hpa, hpa.symm, hhp, Ne.symm hhp, hba, hba.symm, hbh, hbh.symm, hbp, hbp.symm]; rfl, ?_⟩
      refine ⟨⟨List.nodup_cons.2 ⟨hanl, hndl⟩, ?_, rfl, by rw [hlast1, ← hlast]; exact hs.tail⟩, rfl, rfl,
        by simp [length_store], ?_, fun hc => absurd hc.symm hh1⟩
      · rw [Seg_cons]
        refine ⟨⟨_, by simp [getElem?_store, hn, hnh, hnp, hnb, hha, hha.symm, hpa, hpa.symm, hhp, Ne.symm hhp, hba, hba.symm, hbh, hbh.symm, hbp, hbp.symm]; rfl, by rfl,
          by rw [hd_of_head? (head?_append_of_head? hhd _)]⟩, ?_⟩
        rw [Seg_append, hlst]
        constructor
        · refine Seg_relink (some a) (hd (b :: L2) none) hnd.1 hL1 ?_
          intro x hx nx hnx
          have hxa : x ≠ a := fun hc => hal1 (hc ▸ hx)
          have hxb : x ≠ b := fun hc => hdis x hx (hc ▸ (by simp))
          rw [hhd, hpl]
          by_cases hxh : x = h
          · subst hxh
            rw [hnh] at hnx
            cases hnx
            exact ⟨_, by simp [getElem?_store, hn, hnh, hnp, hnb, hha, hha.symm, hpa, hpa.symm, hhp, Ne.symm hhp, hba, hba.symm, hbh, hbh.symm, hbp, hbp.symm]; rfl, by simp, by simp [hd, Ne.symm hhp]⟩
          · by_cases hxp : x = p
            · subst hxp
              rw [hnp] at hnx
              cases hnx
              exact ⟨_, by simp [getElem?_store, hn, hnh, hnp, hnb, hha, hha.symm, hpa, hpa.symm, hhp, Ne.symm hhp, hba, hba.symm, hbh, hbh.symm, hbp, hbp.symm]; rfl, by simp [Ne.symm hxh], by simp [hd]⟩
            · exact ⟨_, by simp [getElem?_store, hn, hnh, hnp, hnb, hha, hha.symm, hpa, hpa.symm, hhp, Ne.symm hhp, hba, hba.symm, hbh, hbh.symm, hbp, hbp.symm, hxa, hxb, hxh, hxp, hnx]; rfl,
                by simp [Ne.symm hxh], by simp [Ne.symm hxp]⟩
        · refine Seg_relink (some p) none hnd2.2 hL2 ?_
          intro x hx nx hnx
          have hxa : x ≠ a := fun hc => hal2 (hc ▸ hx)
          have hxh : x ≠ h := fun hc => hdis h hhL (hc ▸ hx)
          have hxp : x ≠ p := fun hc => hdis p (by simp) (hc ▸ hx)
          by_cases hxb : x = b
          · subst hxb
            rw [hnb] at hnx
            cases hnx
            refine ⟨_, by simp [getElem?_store, hn, hnh, hnp, hnb, hha, hha.symm, hpa, hpa.symm, hhp, Ne.symm hhp, hba, hba.symm, hbh, hbh.symm, hbp, hbp.symm]; rfl, by simp, ?_⟩
            split
            · next hc => exact Seg_last_next (n := nb) hL2 hc hnb
            · rfl
          · refine ⟨nx, by simp [getElem?_store, hn, hnh, hnp, hnb, hha, hha.symm, hpa, hpa.symm, hhp, Ne.symm hhp, hba, hba.symm, hbh, hbh.symm, hbp, hbp.symm, hxa, hxb, hxh, hxp, hnx], by simp [Ne.symm hxb], ?_⟩
            split
            · next hc => exact Seg_last_next hL2 hc hnx
            · rfl
      · intro x
        by_cases hxa : x = a
        · subst hxa
          simp [entryAt, getElem?_store, hn, hnh, hnp, hnb, hha, hha.symm, hpa, hpa.symm, hhp, Ne.symm hhp, hba, hba.symm, hbh, hbh.symm, hbp, hbp.symm]
        · by_cases hxh : x = h
          · subst hxh
            simp [entryAt, getElem?_store, hn, hnh, hnp, hnb, hha, hha.symm, hpa, hpa.symm, hhp, Ne.symm hhp, hba, hba.symm, hbh, hbh.symm, hbp, hbp.symm]
          · by_cases hxp : x = p
            · subst hxp
              simp [entryAt, getElem?_store, hn, hnh, hnp, hnb, hha, hha.symm, hpa, hpa.symm, hhp, Ne.symm hhp, hba, hba.symm, hbh, hbh.symm, hbp, hbp.symm]
            · by_cases hxb : x = b
              · subst hxb
                simp [entryAt, getElem?_store, hn, hnh, hnp, hnb, hha, hha.symm, hpa, hpa.symm, hhp, Ne.symm hhp, hba, hba.symm, hbh, hbh.symm, hbp, hbp.symm]
              · simp [entryAt, getElem?_store, hn, hnh, hnp, hnb, hha, hha.symm, hpa, hpa.symm, hhp, Ne.symm hhp, hba, hba.symm, hbh, hbh.symm, hbp, hbp.symm, hxa, hxh, hxp, hxb]

/-! ## The invariant is kept by every call -/

theorem listFrom_of_Seg {heap : List (LRUCacheNode Key T)} {l : List Nat} {p : Option Nat}
    (h : Seg heap p l none) {fuel : Nat} (hf : l.length ≤ fuel) :
    listFrom heap fuel (hd l none) = l := by
  induction l generalizing p fuel with
  | nil => cases fuel <;> rfl
  | cons a l ih =>
    cases fuel with
    | zero => simp at hf
    | succ fuel =>
      obtain ⟨⟨n, hn, _, hq⟩, hrest⟩ := h
      show listFrom heap (fuel + 1) (some a) = a :: l
      simp only [listFrom, hn, hq]
      rw [ih hrest (by simpa using hf)]

theorem hd_none_eq_head? (l : List Nat) : hd l none = l.head? := by
  cases l <;> rfl

theorem length_le_of_Seg {heap : List (LRUCacheNode Key T)} {l : List Nat} {p q : Option Nat}
    (h : Seg heap p l q) (hnd : l.Nodup) : l.length ≤ heap.length := by
  have hsub : l ⊆ List.range heap.length := by
    intro b hb
    exact List.mem_range.2 (Seg_lt h hb)
  have := (List.subperm_of_subset hnd hsub).length_le
  simpa using this

theorem toList_of_Shape {c : LRUCache Key T} {l : List Nat} (hs : Shape c l) : c.toList = l := by
  unfold LRUCache.toList
  rw [hs.head, ← hd_none_eq_head?]
  exact listFrom_of_Seg hs.seg (length_le_of_Seg hs.seg hs.nodup)

theorem entries_of_Shape {c : LRUCache Key T} {l : List Nat} (hs : Shape c l) :
    c.entries = l.filterMap (entryAt c.heap) := by
  unfold LRUCache.entries
  rw [toList_of_Shape hs]
  rfl

theorem Shape_unique {c : LRUCache Key T} {l l1 : List Nat} (h : Shape c l) (h1 : Shape c l1) :
    l = l1 := by
  rw [← toList_of_Shape h, ← toList_of_Shape h1]

/-- The freshly constructed cache. -/
theorem new_eq {cap : Int} (h0 : 0 < cap) (h1 : cap ≤ INT_MAX) :
    (LRUCache.new cap : Option (LRUCache Key T)) =
      some { mHead := none, mTail := none, iMaxCapacity := cap.toNat, mNodeMap := [], heap := [] } := by
  unfold LRUCache.new
  rw [if_pos h0]
  have h2 : cap % 2 ^ 32 = cap := by
    apply Int.emod_eq_of_lt (le_of_lt h0)
    have : (INT_MAX : Int) < 2 ^ 32 := by decide
    omega
  rw [h2]

section
variable [DecidableEq Key]

theorem WF_new {cap : Int} (h0 : 0 < cap) :
    WF ({ mHead := none, mTail := none, iMaxCapacity := cap.toNat, mNodeMap := [], heap := [] } :
      LRUCache Key T) [] := by
  refine ⟨⟨List.nodup_nil, trivial, rfl, rfl⟩, ?_, List.nodup_nil, ?_⟩
  · intro k a h
    simp [mapFind] at h
  · simpa using h0

theorem WF.ne_nil_of_full {c : LRUCache Key T} {l : List Nat} (h : WF c l)
    (hge : c.mNodeMap.length ≥ c.iMaxCapacity) : l ≠ [] := by
  have hpos : 0 < c.mNodeMap.length := lt_of_lt_of_le h.cap_pos hge
  obtain ⟨k, a, hk⟩ := exists_mapFind_of_length_pos hpos
  intro hc
  have := (h.map_mem k a hk).1
  rw [hc] at this
  simp at this

theorem insert_WF {c : LRUCache Key T} {l : List Nat} (h : WF c l) (k : Key) (v : Option T) :
    ∃ c1 l1, insert c k v = some c1 ∧ WF c1 l1 ∧ c1.iMaxCapacity = c.iMaxCapacity ∧
      mapFind c1.mNodeMap k = some (l1.headD 0) ∧ entryAt c1.heap (l1.headD 0) = some (k, v) ∧
      (∀ j a, j ≠ k → mapFind c1.mNodeMap j = some a →
        mapFind c.mNodeMap j = some a ∧ entryAt c1.heap a = entryAt c.heap a) := by
  by_cases hge : c.mNodeMap.length ≥ c.iMaxCapacity
  · obtain ⟨t, tn, hlast, htn, -, c1, hins, hshape, hmap, hcap, -, het, hother⟩ :=
      insert_evict h.shape (h.ne_nil_of_full hge) k v hge
    have hte : entryAt c.heap t = some (tn.key, tn.data) := by simp [entryAt, htn]
    have hstep : ∀ j a, j ≠ k → mapFind c1.mNodeMap j = some a →
        mapFind c.mNodeMap j = some a ∧ a ≠ t := by
      intro j a hjk hj
      rw [hmap, mapFind_mapAssign, if_neg hjk, mapFind_mapErase] at hj
      by_cases hjt : j = tn.key
      · rw [if_pos hjt] at hj
        cases hj
      · rw [if_neg hjt] at hj
        refine ⟨hj, ?_⟩
        intro hat
        obtain ⟨-, d, hd⟩ := h.map_mem j a hj
        rw [hat, hte] at hd
        simp at hd
        exact hjt hd.1.symm
    refine ⟨c1, _, hins, ⟨hshape, ?_, ?_, by rw [hcap]; exact h.cap_pos⟩, hcap, ?_, het, ?_⟩
    · intro j a hj
      by_cases hjk : j = k
      · subst hjk
        rw [hmap, mapFind_mapAssign, if_pos rfl] at hj
        cases hj
        exact ⟨List.mem_cons_self _ _, v, het⟩
      · obtain ⟨hj1, hat⟩ := hstep j a hjk hj
        obtain ⟨hal, d, hd⟩ := h.map_mem j a hj1
        refine ⟨List.mem_cons_of_mem _ ?_, d, by rw [hother a hat]; exact hd⟩
        have hl := List.dropLast_append_getLast? t hlast
        rw [← hl] at hal
        rcases List.mem_append.1 hal with hal | hal
        · exact hal
        · exact absurd (List.mem_singleton.1 hal) hat
    · rw [hmap]
      exact nodup_keys_mapAssign (nodup_keys_mapErase h.map_nodup _) _ _
    · rw [hmap, mapFind_mapAssign, if_pos rfl]
      rfl
    · intro j a hjk hj
      obtain ⟨hj1, hat⟩ := hstep j a hjk hj
      exact ⟨hj1, hother a hat⟩
  · obtain ⟨c1, hins, hshape, hmap, hcap, hlen, hen, hother⟩ :=
      insert_alloc h.shape k v (not_le.1 hge)
    have hstep : ∀ j a, j ≠ k → mapFind c1.mNodeMap j = some a →
        mapFind c.mNodeMap j = some a := by
      intro j a hjk hj
      rw [hmap, mapFind_mapAssign, if_neg hjk] at hj
      exact hj
    refine ⟨c1, _, hins, ⟨hshape, ?_, ?_, by rw [hcap]; exact h.cap_pos⟩, hcap, ?_, hen, ?_⟩
    · intro j a hj
      by_cases hjk : j = k
      · subst hjk
        rw [hmap, mapFind_mapAssign, if_pos rfl] at hj
        cases hj
        exact ⟨List.mem_cons_self _ _, v, hen⟩
      · obtain ⟨hal, d, hd⟩ := h.map_mem j a (hstep j a hjk hj)
        exact ⟨List.mem_cons_of_mem _ hal, d, by rw [hother a (Seg_lt h.shape.seg hal)]; exact hd⟩
    · rw [hmap]
      exact nodup_keys_mapAssign h.map_nodup _ _
    · rw [hmap, mapFind_mapAssign, if_pos rfl]
      rfl
    · intro j a hjk hj
      have hj1 := hstep j a hjk hj
      exact ⟨hj1, hother a (Seg_lt h.shape.seg (h.map_mem j a hj1).1)⟩

theorem find_WF {c : LRUCache Key T} {l : List Nat} (h : WF c l) (k : Key) :
    ∃ r c1 l1, find c k = some (r, c1) ∧ WF c1 l1 ∧ c1.iMaxCapacity = c.iMaxCapacity ∧
      c1.mNodeMap = c.mNodeMap ∧ (∀ b, entryAt c1.heap b = entryAt c.heap b) ∧
      (match mapFind c.mNodeMap k with
        | none => r = none
        | some a => entryAt c.heap a = some (k, r)) := by
  cases hk : mapFind c.mNodeMap k with
  | none => exact ⟨none, c, l, by simp [find, hk], h, rfl, rfl, fun _ => rfl, rfl⟩
  | some a =>
    obtain ⟨hal, d, hd⟩ := h.map_mem k a hk
    obtain ⟨n, hn, c1, hfind, hshape, hmap, hcap, -, hent, -⟩ := find_spec h.shape hk hal
    have hnd : n.key = k ∧ n.data = d := by
      simpa [entryAt, hn] using hd
    refine ⟨n.data, c1, _, hfind, ⟨hshape, ?_, by rw [hmap]; exact h.map_nodup,
      by rw [hcap]; exact h.cap_pos⟩, hcap, hmap, hent, by show entryAt c.heap a = some (k, n.data); rw [hd, hnd.2]⟩
    intro j b hj
    rw [hmap] at hj
    obtain ⟨hbl, d1, hd1⟩ := h.map_mem j b hj
    refine ⟨?_, d1, by rw [hent]; exact hd1⟩
    by_cases hba : b = a
    · rw [hba]
      exact List.mem_cons_self _ _
    · exact List.mem_cons_of_mem _ ((List.mem_erase_of_ne hba).2 hbl)
end

/-! ## Call sequences keep the invariant -/

section
variable [DecidableEq Key]

theorem insert_alloc_WF {c : LRUCache Key T} {l : List Nat} (h : WF c l)
    (k : Key) (v : Option T) (hlt : c.mNodeMap.length < c.iMaxCapacity) :
    ∃ c1, insert c k v = some c1 ∧ WF c1 (c.heap.length :: l) ∧
      c1.mNodeMap = mapAssign c.mNodeMap k c.heap.length ∧
      c1.iMaxCapacity = c.iMaxCapacity ∧
      entryAt c1.heap c.heap.length = some (k, v) ∧
      ∀ b, b < c.heap.length → entryAt c1.heap b = entryAt c.heap b := by
  obtain ⟨c1, hins, hshape, hmap, hcap, -, hen, hother⟩ := insert_alloc h.shape k v hlt
  obtain ⟨c2, l2, hins2, hwf, -⟩ := insert_WF h k v
  rw [hins] at hins2
  cases hins2
  have := Shape_unique hshape hwf.shape
  subst this
  exact ⟨c1, hins, hwf, hmap, hcap, hen, hother⟩

theorem insert_evict_WF {c : LRUCache Key T} {l : List Nat} (h : WF c l)
    (k : Key) (v : Option T) (hge : c.mNodeMap.length ≥ c.iMaxCapacity) :
    ∃ t tn, l.getLast? = some t ∧ c.heap[t]? = some tn ∧ tn.prev = l.dropLast.getLast? ∧
      ∃ c1, insert c k v = some c1 ∧ WF c1 (t :: l.dropLast) ∧
      c1.mNodeMap = mapAssign (mapErase c.mNodeMap tn.key) k t ∧
      c1.iMaxCapacity = c.iMaxCapacity ∧
      entryAt c1.heap t = some (k, v) ∧
      (∀ b, b ≠ t → entryAt c1.heap b = entryAt c.heap b) := by
  obtain ⟨t, tn, hlast, htn, hprev, c1, hins, hshape, hmap, hcap, -, het, hother⟩ :=
    insert_evict h.shape (h.ne_nil_of_full hge) k v hge
  obtain ⟨c2, l2, hins2, hwf, -⟩ := insert_WF h k v
  rw [hins] at hins2
  cases hins2
  have := Shape_unique hshape hwf.shape
  subst this
  exact ⟨t, tn, hlast, htn, hprev, c1, hins, hwf, hmap, hcap, het, hother⟩

theorem step_WF {c : LRUCache Key T} {l : List Nat} (h : WF c l) (op : Op Key T) :
    ∃ c1 l1, step c op = some c1 ∧ WF c1 l1 ∧ c1.iMaxCapacity = c.iMaxCapacity := by
  cases op with
  | insert k v =>
    obtain ⟨c1, l1, hins, hwf, hcap, -⟩ := insert_WF h k v
    exact ⟨c1, l1, hins, hwf, hcap⟩
  | find k =>
    obtain ⟨r, c1, l1, hfind, hwf, hcap, -⟩ := find_WF h k
    exact ⟨c1, l1, by simp [step, hfind], hwf, hcap⟩

theorem run_WF {c : LRUCache Key T} {l : List Nat} (h : WF c l) (ops : List (Op Key T)) :
    ∃ c1 l1, run c ops = some c1 ∧ WF c1 l1 ∧ c1.iMaxCapacity = c.iMaxCapacity := by
  induction ops generalizing c l with
  | nil => exact ⟨c, l, rfl, h, rfl⟩
  | cons op ops ih =>
    obtain ⟨c1, l1, hstep, hwf, hcap⟩ := step_WF h op
    obtain ⟨c2, l2, hrun, hwf2, hcap2⟩ := ih hwf
    exact ⟨c2, l2, by simp [run, hstep, hrun], hwf2, hcap2.trans hcap⟩

theorem runFrom_WF {cap : Int} (h0 : 0 < cap) (h1 : cap ≤ INT_MAX) (ops : List (Op Key T)) :
    ∃ s l, runFrom cap ops = some s ∧ WF s l ∧ s.iMaxCapacity = cap.toNat := by
  obtain ⟨s, l, hrun, hwf, hcap⟩ := run_WF (@WF_new Key T _ _ h0) ops
  exact ⟨s, l, by simp [runFrom, new_eq h0 h1, hrun], hwf, hcap⟩

theorem Reachable.pos {cap : Int} {s : LRUCache Key T} (h : Reachable cap s) : 0 < cap := by
  obtain ⟨-, ops, hrun⟩ := h
  by_contra hc
  simp [runFrom, LRUCache.new, hc] at hrun

theorem Reachable.wf {cap : Int} {s : LRUCache Key T} (h : Reachable cap s) :
    ∃ l, WF s l ∧ s.iMaxCapacity = cap.toNat := by
  have h0 := h.pos
  obtain ⟨h1, ops, hrun⟩ := h
  obtain ⟨s1, l, hrun1, hwf, hcap⟩ := @runFrom_WF Key T _ _ h0 h1 ops
  rw [hrun] at hrun1
  cases hrun1
  exact ⟨l, hwf, hcap⟩

theorem lookup_of_WF {c : LRUCache Key T} {l : List Nat} (h : WF c l) (k : Key) :
    ∃ r, lookup c k = some r ∧
      (match mapFind c.mNodeMap k with
        | none => r = none
        | some a => entryAt c.heap a = some (k, r)) := by
  obtain ⟨r, c1, l1, hfind, -, -, -, -, hr⟩ := find_WF h k
  exact ⟨r, by simp [lookup, hfind], hr⟩

theorem Hist.congr {c : LRUCache Key T} {g g1 : Key → Option (Option T)} (h : Hist c g)
    (he : ∀ j, g j = g1 j) : Hist c g1 := by
  intro j a hj
  obtain ⟨d, hd, hg⟩ := h j a hj
  exact ⟨d, hd, by rw [← he, hg]⟩

theorem run_Hist {c : LRUCache Key T} {l : List Nat} (h : WF c l) (ops : List (Op Key T))
    (g : Key → Option (Option T)) (hg : Hist c g) :
    ∃ c1 l1, run c ops = some c1 ∧ WF c1 l1 ∧
      Hist c1 (fun j => match lastInsert ops j with
        | some r => some r
        | none => g j) := by
  induction ops generalizing c l g with
  | nil => exact ⟨c, l, rfl, h, hg.congr (fun j => rfl)⟩
  | cons op ops ih =>
    cases op with
    | insert k v =>
      obtain ⟨c1, l1, hins, hwf, -, hk, hkv, hother⟩ := insert_WF h k v
      have hg1 : Hist c1 (fun j => if j = k then some v else g j) := by
        intro j a hj
        by_cases hjk : j = k
        · subst hjk
          rw [hk] at hj
          cases hj
          exact ⟨v, hkv, by simp⟩
        · obtain ⟨hj0, he⟩ := hother j a hjk hj
          obtain ⟨d, hd, hgd⟩ := hg j a hj0
          exact ⟨d, by rw [he]; exact hd, by simp [hjk, hgd]⟩
      obtain ⟨c2, l2, hrun, hwf2, hh⟩ := ih hwf _ hg1
      refine ⟨c2, l2, by simp [run, step, hins, hrun], hwf2, hh.congr ?_⟩
      intro j
      simp only [lastInsert]
      cases lastInsert ops j with
      | some r => rfl
      | none =>
        by_cases hjk : j = k
        · subst hjk
          simp
        · have : ¬ k = j := fun hc => hjk hc.symm
          simp [hjk, this]
    | find k =>
      obtain ⟨r, c1, l1, hfind, hwf, -, hmap, hent, -⟩ := find_WF h k
      have hg1 : Hist c1 g := by
        intro j a hj
        rw [hmap] at hj
        obtain ⟨d, hd, hgd⟩ := hg j a hj
        exact ⟨d, by rw [hent]; exact hd, hgd⟩
      obtain ⟨c2, l2, hrun, hwf2, hh⟩ := ih hwf _ hg1
      exact ⟨c2, l2, by simp [run, step, hfind, hrun], hwf2, hh.congr (fun j => rfl)⟩

end

/-! ## Fresh keys: the index and the list stay in bijection -/

theorem index_eq_of_key_eq {kvs : List (Key × Option T)} (hnd : (kvs.map Prod.fst).Nodup)
    {i j : Nat} (hi : i < kvs.length) (hj : j < kvs.length) (h : (kvs[i]).1 = (kvs[j]).1) :
    i = j := by
  have hi1 : i < (kvs.map Prod.fst).length := by simpa using hi
  have hj1 : j < (kvs.map Prod.fst).length := by simpa using hj
  apply (@List.Nodup.getElem_inj_iff _ _ hnd i hi1 j hj1).1
  simpa using h

section
variable [DecidableEq Key]

theorem mem_keys_iff (m : List (Key × Nat)) (j : Key) :
    j ∈ m.map Prod.fst ↔ mapFind m j ≠ none := by
  rw [Ne, mapFind_eq_none, not_not]

theorem filterMap_dropLast {α β : Type} (f : α → Option β) (l : List α)
    (h : ∀ a ∈ l, ∃ b, f a = some b) :
    l.dropLast.filterMap f = (l.filterMap f).dropLast := by
  rcases List.eq_nil_or_concat' l with rfl | ⟨L, t, rfl⟩
  · rfl
  · obtain ⟨b, hb⟩ := h t (by simp)
    rw [List.dropLast_concat, List.filterMap_append]
    simp [hb]

theorem entryAt_some_of_WF {c : LRUCache Key T} {l : List Nat} (h : WF c l) :
    ∀ a ∈ l, ∃ e, entryAt c.heap a = some e := by
  intro a ha
  obtain ⟨n, hn⟩ := Seg_mem h.shape.seg ha
  exact ⟨_, by simp [entryAt, hn]; rfl⟩

theorem length_entries_of_WF {c : LRUCache Key T} {l : List Nat} (h : WF c l) :
    c.entries.length = l.length := by
  rw [entries_of_Shape h.shape]
  have hall := entryAt_some_of_WF h
  generalize entryAt c.heap = f at hall
  clear h
  induction l with
  | nil => rfl
  | cons a l ih =>
    obtain ⟨e, he⟩ := hall a (List.mem_cons_self a l)
    rw [List.filterMap_cons_some he, List.length_cons, List.length_cons,
      ih (fun b hb => hall b (List.mem_cons_of_mem a hb))]

theorem insert_alloc_entries {c : LRUCache Key T} {l : List Nat} (h : WF c l)
    (k : Key) (v : Option T) (hlt : c.mNodeMap.length < c.iMaxCapacity) :
    ∃ c1, insert c k v = some c1 ∧ c1.entries = (k, v) :: c.entries := by
  obtain ⟨c1, hins, hwf1, -, -, hen, hother⟩ := insert_alloc_WF h k v hlt
  refine ⟨c1, hins, ?_⟩
  rw [entries_of_Shape hwf1.shape, entries_of_Shape h.shape, List.filterMap_cons_some hen]
  congr 1
  apply List.filterMap_congr
  intro b hb
  exact hother b (Seg_lt h.shape.seg hb)

theorem insert_evict_entries {c : LRUCache Key T} {l : List Nat} (h : WF c l)
    (k : Key) (v : Option T) (hge : c.mNodeMap.length ≥ c.iMaxCapacity) :
    ∃ c1, insert c k v = some c1 ∧ c1.entries = (k, v) :: c.entries.dropLast := by
  obtain ⟨t, tn, hlast, htn, hprev, c1, hins, hwf1, hmap, -, het, hother⟩ :=
    insert_evict_WF h k v hge
  have htnd : t ∉ l.dropLast := (List.nodup_cons.1 hwf1.shape.nodup).1
  refine ⟨c1, hins, ?_⟩
  rw [entries_of_Shape hwf1.shape, entries_of_Shape h.shape,
    ← filterMap_dropLast _ _ (entryAt_some_of_WF h), List.filterMap_cons_some het]
  congr 1
  apply List.filterMap_congr
  intro b hb
  exact hother b (fun hc => htnd (hc ▸ hb))

theorem Clean_new {cap : Int} (h0 : 0 < cap) :
    Clean ({ mHead := none, mTail := none, iMaxCapacity := cap.toNat, mNodeMap := [], heap := [] } :
      LRUCache Key T) [] := by
  refine ⟨WF_new h0, ?_, rfl, by simp⟩
  intro a ha
  simp at ha

theorem take_append_take {α : Type} (A B : List α) (n : Nat) :
    (A ++ B.take n).take n = (A ++ B).take n := by
  rw [List.take_append_eq_append_take, List.take_append_eq_append_take, List.take_take]
  congr 2
  omega

theorem insert_Clean {c : LRUCache Key T} {l : List Nat} (h : Clean c l) (k : Key) (v : Option T)
    (hk : mapFind c.mNodeMap k = none) :
    ∃ c1 l1, insert c k v = some c1 ∧ Clean c1 l1 ∧ c1.iMaxCapacity = c.iMaxCapacity ∧
      c1.entries = ((k, v) :: c.entries).take c.iMaxCapacity ∧
      (∀ j, j ≠ k → mapFind c.mNodeMap j = none → mapFind c1.mNodeMap j = none) := by
  have hlen := length_entries_of_WF h.wf
  by_cases hge : c.mNodeMap.length ≥ c.iMaxCapacity
  · have hfull : c.mNodeMap.length = c.iMaxCapacity := le_antisymm h.bound hge
    obtain ⟨t, tn, hlast, htn, -, c1, hins, hwf1, hmap, hcap, het, hother⟩ :=
      insert_evict_WF h.wf k v hge
    obtain ⟨c2, hins2, hent⟩ := insert_evict_entries h.wf k v hge
    rw [hins] at hins2
    cases hins2
    have hl := List.dropLast_append_getLast? t hlast
    have htl : t ∈ l := List.mem_of_getLast?_eq_some hlast
    have htnd : t ∉ l.dropLast := (List.nodup_cons.1 hwf1.shape.nodup).1
    obtain ⟨kt, dt, hkt, hmt⟩ := h.list_mem t htl
    have hkt1 : kt = tn.key := by
      simp [entryAt, htn] at hkt
      exact hkt.1.symm
    subst hkt1
    have hsize : c1.mNodeMap.length = c.mNodeMap.length := by
      have h1 : mapFind (mapErase c.mNodeMap tn.key) k = none := by
        rw [mapFind_mapErase, hk]
        simp
      have h2 : ¬ mapFind c.mNodeMap tn.key = none := by
        rw [hmt]
        simp
      have hpos : 0 < c.mNodeMap.length := lt_of_lt_of_le h.wf.cap_pos hge
      rw [hmap, length_mapAssign, if_pos h1, length_mapErase h.wf.map_nodup, if_neg h2]
      omega
    refine ⟨c1, _, hins, ⟨hwf1, ?_, ?_, by rw [hsize, hcap]; exact h.bound⟩, hcap, ?_, ?_⟩
    · intro a ha
      rcases List.mem_cons.1 ha with rfl | ha
      · exact ⟨k, v, het, by rw [hmap, mapFind_mapAssign, if_pos rfl]⟩
      · have hat : a ≠ t := fun hc => htnd (hc ▸ ha)
        obtain ⟨j, d, hj, hmj⟩ := h.list_mem a (List.mem_of_mem_dropLast ha)
        have hjk : j ≠ k := by
          intro hc
          rw [hc, hk] at hmj
          cases hmj
        have hjt : j ≠ tn.key := by
          intro hc
          rw [hc, hmt] at hmj
          exact hat (Option.some.inj hmj).symm
        exact ⟨j, d, by rw [hother a hat]; exact hj,
          by rw [hmap, mapFind_mapAssign, if_neg hjk, mapFind_mapErase, if_neg hjt]; exact hmj⟩
    · rw [hsize, h.size, List.length_cons, List.length_dropLast]
      have : 0 < l.length := List.length_pos_of_mem htl
      omega
    · rw [hent]
      have hE : c.entries.length = c.iMaxCapacity := by rw [hlen, ← h.size, hfull]
      have hpos := h.wf.cap_pos
      obtain ⟨n, hn⟩ : ∃ n, c.iMaxCapacity = n + 1 := ⟨c.iMaxCapacity - 1, by omega⟩
      rw [hn, List.take_succ_cons, List.dropLast_eq_take, hE, hn]
      rfl
    · intro j hjk hj
      rw [hmap, mapFind_mapAssign, if_neg hjk, mapFind_mapErase, hj]
      simp
  · have hlt : c.mNodeMap.length < c.iMaxCapacity := not_le.1 hge
    obtain ⟨c1, hins, hwf1, hmap, hcap, hen, hother⟩ := insert_alloc_WF h.wf k v hlt
    obtain ⟨c2, hins2, hent⟩ := insert_alloc_entries h.wf k v hlt
    rw [hins] at hins2
    cases hins2
    have hsize : c1.mNodeMap.length = c.mNodeMap.length + 1 := by
      rw [hmap, length_mapAssign, if_pos hk]
    refine ⟨c1, _, hins, ⟨hwf1, ?_, ?_, by rw [hsize, hcap]; exact hlt⟩, hcap, ?_, ?_⟩
    · intro a ha
      rcases List.mem_cons.1 ha with rfl | ha
      · exact ⟨k, v, hen, by rw [hmap, mapFind_mapAssign, if_pos rfl]⟩
      · obtain ⟨j, d, hj, hmj⟩ := h.list_mem a ha
        have hjk : j ≠ k := by
          intro hc
          rw [hc, hk] at hmj
          cases hmj
        exact ⟨j, d, by rw [hother a (Seg_lt h.wf.shape.seg ha)]; exact hj,
          by rw [hmap, mapFind_mapAssign, if_neg hjk]; exact hmj⟩
    · rw [hsize, h.size, List.length_cons]
    · rw [hent, List.take_of_length_le]
      rw [List.length_cons, hlen, ← h.size]
      exact hlt
    · intro j hjk hj
      rw [hmap, mapFind_mapAssign, if_neg hjk, hj]

theorem run_inserts_Clean {c : LRUCache Key T} {l : List Nat} (h : Clean c l)
    (kvs : List (Key × Option T)) (hnd : (kvs.map Prod.fst).Nodup)
    (hfresh : ∀ p ∈ kvs, mapFind c.mNodeMap p.1 = none) :
    ∃ c1 l1, run c (kvs.map (fun p => Op.insert p.1 p.2)) = some c1 ∧ Clean c1 l1 ∧
      c1.iMaxCapacity = c.iMaxCapacity ∧
      c1.entries = (kvs.reverse ++ c.entries).take c.iMaxCapacity := by
  induction kvs generalizing c l with
  | nil =>
    refine ⟨c, l, rfl, h, rfl, ?_⟩
    rw [List.reverse_nil, List.nil_append, List.take_of_length_le]
    rw [length_entries_of_WF h.wf, ← h.size]
    exact h.bound
  | cons p kvs ih =>
    have hnd1 := List.nodup_cons.1 (by simpa using hnd : (p.1 :: kvs.map Prod.fst).Nodup)
    obtain ⟨c1, l1, hins, hcl, hcap, hent, hframe⟩ :=
      insert_Clean h p.1 p.2 (hfresh p (List.mem_cons_self p kvs))
    have hfresh1 : ∀ q ∈ kvs, mapFind c1.mNodeMap q.1 = none := by
      intro q hq
      apply hframe q.1 _ (hfresh q (List.mem_cons_of_mem p hq))
      intro hc
      exact hnd1.1 (hc ▸ List.mem_map_of_mem Prod.fst hq)
    obtain ⟨c2, l2, hrun, hcl2, hcap2, hent2⟩ := ih hcl hnd1.2 hfresh1
    refine ⟨c2, l2, by simp [run, step, hins, hrun], hcl2, hcap2.trans hcap, ?_⟩
    rw [hent2, hent, hcap, take_append_take, List.reverse_cons, List.append_assoc]
    rfl

theorem lookup_Clean {c : LRUCache Key T} {l : List Nat} (h : Clean c l) (k : Key) :
    ∃ r, lookup c k = some r ∧ ((k, r) ∈ c.entries ∨ (r = none ∧ ∀ d, (k, d) ∉ c.entries)) := by
  obtain ⟨r, hlook, hr⟩ := lookup_of_WF h.wf k
  refine ⟨r, hlook, ?_⟩
  rw [entries_of_Shape h.wf.shape]
  cases hm : mapFind c.mNodeMap k with
  | none =>
    rw [hm] at hr
    refine Or.inr ⟨hr, ?_⟩
    intro d hd
    obtain ⟨a, ha, hae⟩ := List.mem_filterMap.1 hd
    obtain ⟨j, d1, hj, hmj⟩ := h.list_mem a ha
    rw [hj] at hae
    simp at hae
    rw [hae.1, hm] at hmj
    cases hmj
  | some a =>
    rw [hm] at hr
    exact Or.inl (List.mem_filterMap.2 ⟨a, (h.wf.map_mem k a hm).1, hr⟩)

end

/-! ## Coverage, links, fresh-key call sequences and the reference model: lemmas -/

section
variable [DecidableEq Key]

theorem find_absent {c : LRUCache Key T} {k : Key} (hk : mapFind c.mNodeMap k = none) :
    find c k = some (none, c) := by
  simp [find, hk]

theorem find_present_WF {c : LRUCache Key T} {l : List Nat} (h : WF c l) {k : Key} {a : Nat}
    (hk : mapFind c.mNodeMap k = some a) :
    ∃ n c1, c.heap[a]? = some n ∧ n.key = k ∧ find c k = some (n.data, c1) ∧
      WF c1 (a :: l.erase a) ∧ a ∈ l ∧
      c1.mNodeMap = c.mNodeMap ∧ c1.iMaxCapacity = c.iMaxCapacity ∧
      c1.heap.length = c.heap.length ∧ (∀ b, entryAt c1.heap b = entryAt c.heap b) ∧
      (c.mHead = some a → c1 = c) := by
  obtain ⟨hal, d, hd⟩ := h.map_mem k a hk
  obtain ⟨n, hn, c1, hfind, hshape, hmap, hcap, hlen, hent, hhead⟩ := find_spec h.shape hk hal
  obtain ⟨r, c2, l2, hfind2, hwf, -⟩ := find_WF h k
  rw [hfind] at hfind2
  cases hfind2
  have := Shape_unique hshape hwf.shape
  subst this
  have hkey : n.key = k := by
    simp [entryAt, hn] at hd
    exact hd.1
  exact ⟨n, c1, hn, hkey, hfind, hwf, hal, hmap, hcap, hlen, hent, hhead⟩

theorem Tight_new {cap : Int} (h0 : 0 < cap) :
    Tight ({ mHead := none, mTail := none, iMaxCapacity := cap.toNat, mNodeMap := [], heap := [] } :
      LRUCache Key T) [] :=
  ⟨WF_new h0, rfl, fun h => absurd rfl h⟩

theorem ne_nil_of_mapFind {m : List (Key × Nat)} {k : Key} {a : Nat} (h : mapFind m k = some a) :
    m ≠ [] := by
  intro hc
  rw [hc] at h
  simp [mapFind] at h

theorem insert_Tight {c : LRUCache Key T} {l : List Nat} (h : Tight c l) (k : Key)
    (v : Option T) : ∃ c1 l1, insert c k v = some c1 ∧ Tight c1 l1 := by
  by_cases hge : c.mNodeMap.length ≥ c.iMaxCapacity
  · obtain ⟨t, tn, hlast, -, -, c1, hins, -, -, -, hlen, -⟩ :=
      insert_evict h.wf.shape (h.wf.ne_nil_of_full hge) k v hge
    obtain ⟨t2, tn2, hlast2, -, -, c2, hins2, hwf, hmap, -⟩ := insert_evict_WF h.wf k v hge
    rw [hins] at hins2
    cases hins2
    rw [hlast] at hlast2
    cases hlast2
    refine ⟨c1, _, hins, hwf, ?_, fun _ => ?_⟩
    · rw [hlen, ← h.cover, List.length_cons, List.length_dropLast]
      have : 0 < l.length := List.length_pos_of_mem (List.mem_of_getLast?_eq_some hlast)
      omega
    · apply ne_nil_of_mapFind (k := k) (a := t)
      rw [hmap, mapFind_mapAssign, if_pos rfl]
  · obtain ⟨c1, hins, -, -, -, hlen, -⟩ := insert_alloc h.wf.shape k v (not_le.1 hge)
    obtain ⟨c2, hins2, hwf, hmap, -⟩ := insert_alloc_WF h.wf k v (not_le.1 hge)
    rw [hins] at hins2
    cases hins2
    refine ⟨c1, _, hins, hwf, ?_, fun _ => ?_⟩
    · rw [hlen, ← h.cover, List.length_cons]
    · apply ne_nil_of_mapFind (k := k) (a := c.heap.length)
      rw [hmap, mapFind_mapAssign, if_pos rfl]

theorem length_cons_erase {a : Nat} {l : List Nat} (ha : a ∈ l) :
    (a :: l.erase a).length = l.length := by
  rw [List.length_cons, List.length_erase_of_mem ha]
  have : 0 < l.length := List.length_pos_of_mem ha
  omega

theorem find_Tight {c : LRUCache Key T} {l : List Nat} (h : Tight c l) (k : Key) :
    ∃ r c1 l1, find c k = some (r, c1) ∧ Tight c1 l1 := by
  cases hk : mapFind c.mNodeMap k with
  | none => exact ⟨none, c, l, find_absent hk, h⟩
  | some a =>
    obtain ⟨n, c1, -, -, hfind, hwf, hal, hmap, -, hlen, -, -⟩ := find_present_WF h.wf hk
    refine ⟨n.data, c1, _, hfind, hwf, ?_, fun _ => ?_⟩
    · rw [length_cons_erase hal, hlen, h.cover]
    · rw [hmap]
      exact ne_nil_of_mapFind hk

theorem run_Tight {c : LRUCache Key T} {l : List Nat} (h : Tight c l) (ops : List (Op Key T)) :
    ∃ c1 l1, run c ops = some c1 ∧ Tight c1 l1 := by
  induction ops generalizing c l with
  | nil => exact ⟨c, l, rfl, h⟩
  | cons op ops ih =>
    cases op with
    | insert k v =>
      obtain ⟨c1, l1, hins, ht⟩ := insert_Tight h k v
      obtain ⟨c2, l2, hrun, ht2⟩ := ih ht
      exact ⟨c2, l2, by simp [run, step, hins, hrun], ht2⟩
    | find k =>
      obtain ⟨r, c1, l1, hfind, ht⟩ := find_Tight h k
      obtain ⟨c2, l2, hrun, ht2⟩ := ih ht
      exact ⟨c2, l2, by simp [run, step, hfind, hrun], ht2⟩

theorem runFrom_Tight {cap : Int} (h0 : 0 < cap) (h1 : cap ≤ INT_MAX) (ops : List (Op Key T)) :
    ∃ s l, runFrom cap ops = some s ∧ Tight s l ∧ s.iMaxCapacity = cap.toNat := by
  obtain ⟨s, l, hrun, ht⟩ := run_Tight (@Tight_new Key T _ _ h0) ops
  obtain ⟨s2, l2, hrun2, -, hcap⟩ := run_WF (@WF_new Key T _ _ h0) ops
  rw [hrun] at hrun2
  cases hrun2
  exact ⟨s, l, by simp [runFrom, new_eq h0 h1, hrun], ht, hcap⟩

end

theorem lst_none_eq_getLast? (l : List Nat) : lst none l = l.getLast? := by
  unfold lst
  cases l.getLast? <;> rfl

theorem listBack_of_Seg {heap : List (LRUCacheNode Key T)} {l : List Nat} {q : Option Nat}
    (h : Seg heap none l q) {fuel : Nat} (hf : l.length ≤ fuel) :
    listBack heap fuel (lst none l) = l.reverse := by
  induction l using List.reverseRecOn generalizing q fuel with
  | nil => cases fuel <;> rfl
  | append_singleton L t ih =>
    cases fuel with
    | zero => simp at hf
    | succ fuel =>
      obtain ⟨hL, ⟨n, hn, hp, -⟩, -⟩ := (Seg_append heap L [t] none q).1 h
      have e : lst none (L ++ [t]) = some t := by simp [lst]
      rw [e, List.reverse_append]
      show t :: (match heap[t]? with
        | none => []
        | some n => listBack heap fuel n.prev) = [t].reverse ++ L.reverse
      rw [hn]
      simp only [hp]
      rw [ih hL (by simpa using hf)]
      rfl

theorem toListRev_of_Shape {c : LRUCache Key T} {l : List Nat} (hs : Shape c l) :
    c.toListRev = l.reverse := by
  unfold LRUCache.toListRev
  rw [hs.tail, ← lst_none_eq_getLast?]
  exact listBack_of_Seg hs.seg (length_le_of_Seg hs.seg hs.nodup)

theorem Seg_next_prev {heap : List (LRUCacheNode Key T)} {l : List Nat} {p : Option Nat}
    (h : Seg heap p l none) {a b : Nat} (ha : a ∈ l) {n : LRUCacheNode Key T}
    (hn : heap[a]? = some n) (hb : n.next = some b) :
    b ∈ l ∧ ∃ m, heap[b]? = some m ∧ m.prev = some a := by
  induction l generalizing p with
  | nil => simp at ha
  | cons x l ih =>
    obtain ⟨⟨nx, hnx, -, hq⟩, hrest⟩ := h
    by_cases hax : a = x
    · subst hax
      rw [hn] at hnx
      cases hnx
      rw [hb] at hq
      cases l with
      | nil => simp [hd] at hq
      | cons y l =>
        simp only [hd, Option.some.injEq] at hq
        subst hq
        obtain ⟨⟨m, hm, hmp, -⟩, -⟩ := hrest
        exact ⟨by simp, m, hm, hmp⟩
    · have hal : a ∈ l := by
        rcases List.mem_cons.1 ha with h1 | h1
        · exact absurd h1 hax
        · exact h1
      obtain ⟨hbl, hm⟩ := ih hrest hal
      exact ⟨List.mem_cons_of_mem _ hbl, hm⟩

theorem Shape_links {c : LRUCache Key T} {l : List Nat} (hs : Shape c l) {a : Nat} (ha : a ∈ l)
    {n : LRUCacheNode Key T} (hn : c.heap[a]? = some n) :
    (c.mHead ≠ some a → ∃ p, n.prev = some p ∧ p ∈ l) ∧
    (c.mTail ≠ some a → ∃ b, n.next = some b ∧ b ∈ l) := by
  obtain ⟨l1, l2, rfl⟩ := List.append_of_mem ha
  obtain ⟨-, hrest⟩ := (Seg_append c.heap l1 (a :: l2) none none).1 hs.seg
  rw [Seg_cons] at hrest
  obtain ⟨⟨n1, hn1, hp, hq⟩, -⟩ := hrest
  rw [hn] at hn1
  cases hn1
  constructor
  · intro hh
    rcases List.eq_nil_or_concat' l1 with rfl | ⟨L, p, rfl⟩
    · exact absurd hs.head hh
    · exact ⟨p, by rw [hp]; simp [lst], by simp⟩
  · intro ht
    cases l2 with
    | nil =>
      apply absurd _ ht
      rw [hs.tail]
      simp
    | cons b l2 => exact ⟨b, hq, by simp⟩

theorem mem_toList_iff_of_Tight [DecidableEq Key] {c : LRUCache Key T} {l : List Nat}
    (h : Tight c l) (a : Nat) : a ∈ l ↔ a < c.heap.length := by
  constructor
  · exact fun ha => Seg_lt h.wf.shape.seg ha
  · intro ha
    have hsub : l ⊆ List.range c.heap.length := fun b hb =>
      List.mem_range.2 (Seg_lt h.wf.shape.seg hb)
    have hperm := (List.subperm_of_subset h.wf.shape.nodup hsub).perm_of_length_le
      (by rw [List.length_range, h.cover])
    exact hperm.mem_iff.2 (List.mem_range.2 ha)

section
variable [DecidableEq Key]

theorem evict_some {c : LRUCache Key T} {l : List Nat} (hs : Shape c l) (hl : l ≠ []) :
    ∃ t, c.mTail = some t ∧ t ∈ l ∧ ∃ r, evict c = some r := by
  rcases List.eq_nil_or_concat' l with rfl | ⟨L, t, rfl⟩
  · exact absurd rfl hl
  obtain ⟨hL, ⟨tn, htn, htp, -⟩, -⟩ := (Seg_append c.heap L [t] none none).1 hs.seg
  have hnd := List.nodup_append.1 hs.nodup
  have htL : t ∉ L := fun hc => hnd.2.2 hc (List.mem_singleton_self t)
  have htail : c.mTail = some t := by rw [hs.tail]; simp
  refine ⟨t, htail, by simp, ?_⟩
  rcases List.eq_nil_or_concat' L with rfl | ⟨L1, p, rfl⟩
  · simp only [lst] at htp
    simp at htp
    exact ⟨_, by simp [evict, htail, readNode, htn, htp]; rfl⟩
  · have htp1 : tn.prev = some p := by rw [htp]; simp [lst]
    obtain ⟨np, hnp⟩ := Seg_mem hL (b := p) (by simp)
    have hpt : p ≠ t := fun hc => htL (hc ▸ (by simp))
    exact ⟨_, by simp [evict, htail, readNode, htn, htp1, writeNode, getElem?_store, hnp, hpt,
      hpt.symm]; rfl⟩

theorem mapFind_of_mem {m : List (Key × Nat)} (hnd : (m.map Prod.fst).Nodup) {k : Key} {a : Nat}
    (h : (k, a) ∈ m) : mapFind m k = some a := by
  induction m with
  | nil => simp at h
  | cons e m ih =>
    have hnd1 : e.1 ∉ m.map Prod.fst ∧ (m.map Prod.fst).Nodup := List.nodup_cons.1 hnd
    rcases List.mem_cons.1 h with h1 | h1
    · subst h1
      simp [mapFind]
    · have hne : e.1 ≠ k := by
        intro hc
        exact hnd1.1 (hc ▸ List.mem_map_of_mem Prod.fst h1)
      simp only [mapFind, if_neg hne]
      exact ih hnd1.2 h1

theorem index_le_list {c : LRUCache Key T} {l : List Nat} (h : WF c l) :
    c.mNodeMap.length ≤ l.length := by
  have hm : c.mNodeMap.Nodup := List.Nodup.of_map _ h.map_nodup
  have hvals : (c.mNodeMap.map Prod.snd).Nodup := by
    apply List.Nodup.map_on _ hm
    intro x hx y hy hxy
    obtain ⟨-, d, hd⟩ := h.map_mem x.1 x.2 (mapFind_of_mem h.map_nodup hx)
    obtain ⟨-, d1, hd1⟩ := h.map_mem y.1 y.2 (mapFind_of_mem h.map_nodup hy)
    rw [hxy, hd1] at hd
    have hk : y.1 = x.1 := by simpa using congrArg (fun o => o.map Prod.fst) hd
    exact Prod.ext hk.symm hxy
  have hsub : c.mNodeMap.map Prod.snd ⊆ l := by
    intro a ha
    obtain ⟨x, hx, rfl⟩ := List.mem_map.1 ha
    exact (h.map_mem x.1 x.2 (mapFind_of_mem h.map_nodup hx)).1
  have := (List.subperm_of_subset hvals hsub).length_le
  simpa using this

end

section
variable [DecidableEq Key]

theorem find_Clean {c : LRUCache Key T} {l : List Nat} (h : Clean c l) (k : Key) :
    ∃ r c1 l1, find c k = some (r, c1) ∧ Clean c1 l1 ∧ c1.iMaxCapacity = c.iMaxCapacity ∧
      c1.mNodeMap = c.mNodeMap := by
  cases hk : mapFind c.mNodeMap k with
  | none => exact ⟨none, c, l, find_absent hk, h, rfl, rfl⟩
  | some a =>
    obtain ⟨n, c1, -, -, hfind, hwf, hal, hmap, hcap, -, hent, -⟩ := find_present_WF h.wf hk
    refine ⟨n.data, c1, _, hfind, ⟨hwf, ?_, ?_, ?_⟩, hcap, hmap⟩
    · intro b hb
      have hbl : b ∈ l := by
        rcases List.mem_cons.1 hb with rfl | hb
        · exact hal
        · exact List.mem_of_mem_erase hb
      obtain ⟨j, d, hj, hmj⟩ := h.list_mem b hbl
      exact ⟨j, d, by rw [hent]; exact hj, by rw [hmap]; exact hmj⟩
    · rw [hmap, h.size, length_cons_erase hal]
    · rw [hmap, hcap]
      exact h.bound

theorem freshOps_append {c : LRUCache Key T} {ops ops1 : List (Op Key T)}
    (h : freshOps c (ops ++ ops1) = true) : freshOps c ops = true := by
  induction ops generalizing c with
  | nil => rfl
  | cons op ops ih =>
    cases op with
    | insert k v =>
      simp only [List.cons_append, freshOps, Bool.and_eq_true] at h ⊢
      refine ⟨h.1, ?_⟩
      cases hi : insert c k v with
      | none => rfl
      | some c1 =>
        have h2 := h.2
        rw [hi] at h2
        exact ih h2
    | find k =>
      simp only [List.cons_append, freshOps] at h ⊢
      cases hf : find c k with
      | none => rfl
      | some p =>
        rw [hf] at h
        exact ih h

theorem run_Clean {c : LRUCache Key T} {l : List Nat} (h : Clean c l) (ops : List (Op Key T))
    (hf : freshOps c ops = true) :
    ∃ c1 l1, run c ops = some c1 ∧ Clean c1 l1 ∧ c1.iMaxCapacity = c.iMaxCapacity := by
  induction ops generalizing c l with
  | nil => exact ⟨c, l, rfl, h, rfl⟩
  | cons op ops ih =>
    cases op with
    | insert k v =>
      simp only [freshOps, Bool.and_eq_true, Option.isNone_iff_eq_none] at hf
      obtain ⟨c1, l1, hins, hcl, hcap, -⟩ := insert_Clean h k v hf.1
      have hf2 := hf.2
      rw [hins] at hf2
      obtain ⟨c2, l2, hrun, hcl2, hcap2⟩ := ih hcl hf2
      exact ⟨c2, l2, by simp [run, step, hins, hrun], hcl2, hcap2.trans hcap⟩
    | find k =>
      obtain ⟨r, c1, l1, hfind, hcl, hcap, -⟩ := find_Clean h k
      simp only [freshOps, hfind] at hf
      obtain ⟨c2, l2, hrun, hcl2, hcap2⟩ := ih hcl hf
      exact ⟨c2, l2, by simp [run, step, hfind, hrun], hcl2, hcap2.trans hcap⟩

theorem runFrom_Clean {cap : Int} (h0 : 0 < cap) (h1 : cap ≤ INT_MAX) (ops : List (Op Key T))
    (hf : freshFrom cap ops = true) :
    ∃ s l, runFrom cap ops = some s ∧ Clean s l ∧ s.iMaxCapacity = cap.toNat := by
  simp only [freshFrom, new_eq h0 h1] at hf
  obtain ⟨s, l, hrun, hcl, hcap⟩ := run_Clean (@Clean_new Key T _ _ h0) ops hf
  exact ⟨s, l, by simp [runFrom, new_eq h0 h1, hrun], hcl, hcap⟩

theorem FreshReachable.clean {cap : Int} {s : LRUCache Key T} (h : FreshReachable cap s) :
    ∃ l, Clean s l ∧ s.iMaxCapacity = cap.toNat := by
  obtain ⟨h1, ops, hf, hrun⟩ := h
  have h0 : 0 < cap := by
    by_contra hc
    simp [runFrom, LRUCache.new, hc] at hrun
  obtain ⟨s1, l, hrun1, hcl, hcap⟩ := runFrom_Clean h0 h1 ops hf
  rw [hrun] at hrun1
  cases hrun1
  exact ⟨l, hcl, hcap⟩

end

theorem modelInsert_eq_take (N : Nat) (m : List (Key × Option T)) (k : Key) (v : Option T)
    (h : m.length ≤ N) : modelInsert N m k v = ((k, v) :: m).take N := by
  unfold modelInsert
  split
  · next hgt =>
    rw [List.dropLast_eq_take]
    congr 1
    simp only [List.length_cons] at hgt ⊢
    omega
  · next hle =>
    rw [List.take_of_length_le (by omega)]

theorem nodup_filterMap_on {α β : Type} (g : α → Option β) (l : List α) (hnd : l.Nodup)
    (hinj : ∀ a ∈ l, ∀ b ∈ l, ∀ k, g a = some k → g b = some k → a = b) :
    (l.filterMap g).Nodup := by
  induction l with
  | nil => simp
  | cons x l ih =>
    have hnd1 := List.nodup_cons.1 hnd
    have ih1 := ih hnd1.2 (fun a ha b hb k h1 h2 =>
      hinj a (List.mem_cons_of_mem x ha) b (List.mem_cons_of_mem x hb) k h1 h2)
    cases hx : g x with
    | none => rw [List.filterMap_cons_none hx]; exact ih1
    | some k =>
      rw [List.filterMap_cons_some hx, List.nodup_cons]
      refine ⟨?_, ih1⟩
      intro hmem
      obtain ⟨b, hb, hgb⟩ := List.mem_filterMap.1 hmem
      have := hinj x (List.mem_cons_self x l) b (List.mem_cons_of_mem x hb) k hx hgb
      exact hnd1.1 (this ▸ hb)

section
variable [DecidableEq Key]

theorem filterMap_no_key {V : Type} (f : Nat → Option (Key × V)) (k : Key) (l : List Nat)
    (h : ∀ b ∈ l, ∀ x, f b = some x → x.1 ≠ k) :
    (l.filterMap f).find? (fun x => decide (x.1 = k)) = none ∧
    (l.filterMap f).filter (fun x => decide (x.1 ≠ k)) = l.filterMap f := by
  constructor
  · rw [List.find?_eq_none]
    intro x hx
    obtain ⟨b, hb, hfb⟩ := List.mem_filterMap.1 hx
    simpa using h b hb x hfb
  · rw [List.filter_eq_self]
    intro x hx
    obtain ⟨b, hb, hfb⟩ := List.mem_filterMap.1 hx
    simpa using h b hb x hfb

theorem filterMap_move_key {V : Type} (f : Nat → Option (Key × V)) (k : Key) (l : List Nat)
    (hnd : l.Nodup) (a : Nat) (ha : a ∈ l) (e : Key × V) (hfa : f a = some e) (hk : e.1 = k)
    (hall : ∀ b ∈ l, ∃ x, f b = some x)
    (hinj : ∀ b ∈ l, ∀ x, f b = some x → x.1 = k → b = a) :
    (l.filterMap f).find? (fun x => decide (x.1 = k)) = some e ∧
    (l.filterMap f).filter (fun x => decide (x.1 ≠ k)) = (l.erase a).filterMap f := by
  induction l with
  | nil => simp at ha
  | cons b l ih =>
    have hnd1 := List.nodup_cons.1 hnd
    by_cases hba : b = a
    · subst hba
      have hrest : ∀ c ∈ l, ∀ x, f c = some x → x.1 ≠ k := by
        intro c hc x hx hxk
        have := hinj c (List.mem_cons_of_mem b hc) x hx hxk
        exact hnd1.1 (this ▸ hc)
      obtain ⟨-, h2⟩ := filterMap_no_key f k l hrest
      rw [List.filterMap_cons_some hfa, List.erase_cons_head]
      constructor
      · simp [hk]
      · rw [List.filter_cons_of_neg (by simp [hk]), h2]
    · obtain ⟨x, hx⟩ := hall b (List.mem_cons_self b l)
      have hxk : x.1 ≠ k := fun hc => hba (hinj b (List.mem_cons_self b l) x hx hc)
      have hal : a ∈ l := by
        rcases List.mem_cons.1 ha with h1 | h1
        · exact absurd h1.symm hba
        · exact h1
      obtain ⟨h1, h2⟩ := ih hnd1.2 hal (fun c hc => hall c (List.mem_cons_of_mem b hc))
        (fun c hc y hy hyk => hinj c (List.mem_cons_of_mem b hc) y hy hyk)
      rw [List.filterMap_cons_some hx]
      have he : (b :: l).erase a = b :: l.erase a := by
        rw [List.erase_cons_tail]
        simpa using hba
      rw [he, List.filterMap_cons_some hx]
      constructor
      · rw [List.find?_cons_of_neg _ (by simpa using hxk)]
        exact h1
      · rw [List.filter_cons_of_pos (by simpa using hxk), h2]

theorem Clean.key_inj {c : LRUCache Key T} {l : List Nat} (h : Clean c l) {b : Nat} (hb : b ∈ l)
    {x : Key × Option T} (hx : entryAt c.heap b = some x) : mapFind c.mNodeMap x.1 = some b := by
  obtain ⟨j, d, hj, hmj⟩ := h.list_mem b hb
  rw [hx] at hj
  cases hj
  exact hmj

theorem nodup_keys_of_Clean {c : LRUCache Key T} {l : List Nat} (h : Clean c l) :
    (c.entries.map Prod.fst).Nodup := by
  rw [entries_of_Shape h.wf.shape, List.map_filterMap]
  apply nodup_filterMap_on _ _ h.wf.shape.nodup
  intro a ha b hb k hka hkb
  obtain ⟨x, hx⟩ := entryAt_some_of_WF h.wf a ha
  obtain ⟨y, hy⟩ := entryAt_some_of_WF h.wf b hb
  have h1 := h.key_inj ha hx
  have h2 := h.key_inj hb hy
  simp only [hx, hy, Option.map_some', Option.some.injEq, Option.bind_some] at hka hkb
  have hxk : x.1 = k := by simpa using hka
  have hyk : y.1 = k := by simpa using hkb
  rw [hxk] at h1
  rw [hyk, h1] at h2
  exact Option.some.inj h2

theorem find_Clean_model {c : LRUCache Key T} {l : List Nat} (h : Clean c l) (k : Key) :
    ∃ r c1 l1, find c k = some (r, c1) ∧ Clean c1 l1 ∧ c1.iMaxCapacity = c.iMaxCapacity ∧
      modelFind c.entries k = (r, c1.entries) := by
  cases hk : mapFind c.mNodeMap k with
  | none =>
    refine ⟨none, c, l, find_absent hk, h, rfl, ?_⟩
    have hno : ∀ b ∈ l, ∀ x, entryAt c.heap b = some x → x.1 ≠ k := by
      intro b hb x hx hxk
      have := h.key_inj hb hx
      rw [hxk, hk] at this
      cases this
    unfold modelFind
    rw [entries_of_Shape h.wf.shape, (filterMap_no_key _ k l hno).1]
  | some a =>
    obtain ⟨n, c1, hn, hkey, hfind, hwf, hal, hmap, hcap, -, hent, -⟩ :=
      find_present_WF h.wf hk
    obtain ⟨r2, c2, l2, hfind2, hcl, -⟩ := find_Clean h k
    rw [hfind] at hfind2
    cases hfind2
    refine ⟨n.data, c1, l2, hfind, hcl, hcap, ?_⟩
    have hea : entryAt c.heap a = some (n.key, n.data) := by simp [entryAt, hn]
    have hinj : ∀ b ∈ l, ∀ x, entryAt c.heap b = some x → x.1 = k → b = a := by
      intro b hb x hx hxk
      have := h.key_inj hb hx
      rw [hxk, hk] at this
      exact (Option.some.inj this).symm
    obtain ⟨h1, h2⟩ := filterMap_move_key (entryAt c.heap) k l h.wf.shape.nodup a hal
      (n.key, n.data) hea hkey (entryAt_some_of_WF h.wf) hinj
    unfold modelFind
    rw [entries_of_Shape h.wf.shape, h1, entries_of_Shape hwf.shape]
    simp only [h2]
    have hfun : entryAt c1.heap = entryAt c.heap := funext hent
    rw [hfun, List.filterMap_cons_some hea]

theorem runTrace_Clean {c : LRUCache Key T} {l : List Nat} (h : Clean c l)
    (ops : List (Op Key T)) (hf : freshOps c ops = true) :
    runTrace c ops = some (modelTrace c.iMaxCapacity c.entries ops) := by
  induction ops generalizing c l with
  | nil => rfl
  | cons op ops ih =>
    cases op with
    | insert k v =>
      simp only [freshOps, Bool.and_eq_true, Option.isNone_iff_eq_none] at hf
      obtain ⟨c1, l1, hins, hcl, hcap, hent, -⟩ := insert_Clean h k v hf.1
      have hf2 := hf.2
      rw [hins] at hf2
      have hlen : c.entries.length ≤ c.iMaxCapacity := by
        rw [length_entries_of_WF h.wf, ← h.size]
        exact h.bound
      have hm : modelInsert c.iMaxCapacity c.entries k v = c1.entries := by
        rw [modelInsert_eq_take _ _ _ _ hlen, hent]
      have ih1 := ih hcl hf2
      rw [hcap] at ih1
      simp [runTrace, modelTrace, hins, hm, ih1]
    | find k =>
      obtain ⟨r, c1, l1, hfind, hcl, hcap, hm⟩ := find_Clean_model h k
      simp only [freshOps, hfind] at hf
      have ih1 := ih hcl hf
      rw [hcap] at ih1
      simp [runTrace, modelTrace, hfind, hm, ih1]

theorem insert_Clean_full {c : LRUCache Key T} {l : List Nat} (h : Clean c l) (k : Key)
    (v : Option T) (hk : mapFind c.mNodeMap k = none) :
    ∃ c1 l1, insert c k v = some c1 ∧ Clean c1 l1 ∧
      c1.mNodeMap.length = min (c.mNodeMap.length + 1) c.iMaxCapacity := by
  obtain ⟨c1, l1, hins, hcl, hcap, hent, -⟩ := insert_Clean h k v hk
  refine ⟨c1, l1, hins, hcl, ?_⟩
  have h1 := congrArg List.length hent
  rw [length_entries_of_WF hcl.wf, ← hcl.size, List.length_take, List.length_cons,
    length_entries_of_WF h.wf, ← h.size] at h1
  rw [h1, min_comm]

end

section
variable [DecidableEq Key]

theorem freshFrom_append {cap : Int} {ops ops1 : List (Op Key T)}
    (h : freshFrom cap (ops ++ ops1) = true) : freshFrom cap ops = true := by
  unfold freshFrom at h ⊢
  cases hn : (LRUCache.new cap : Option (LRUCache Key T)) with
  | none => rfl
  | some c =>
    rw [hn] at h
    exact freshOps_append h

end

/-! ## The scenarios of the specification, evaluated -/

/-- The calls of `main`: capacity 5, keys "1" to "7"; "7" and "5" are found, "2" and "1"
are not. -/
theorem main_scenario :
    ((runFrom 5 (demoPairs.map (fun p => Op.insert p.1 p.2))).map
      (fun s => (lookup s "7", lookup s "2", lookup s "5", lookup s "1"))) =
    some (some (some "7"), some none, some (some "5"), some none) := by
  decide

/-- Capacity 3: insert 1, 2, 3, find 1, insert 4 evicts 2 and keeps 1, 3 and 4. -/
theorem promote_scenario :
    ((runFrom 3 [Op.insert 1 (some 10), Op.insert 2 (some 20), Op.insert 3 (some 30),
        Op.find 1, Op.insert 4 (some 40)] : Option (LRUCache Nat Nat)).map
      (fun s => (lookup s 1, lookup s 2, lookup s 3, lookup s 4))) =
    some (some (some 10), some none, some (some 30), some (some 40)) := by
  decide

/-! ## The claims -/

section
variable [DecidableEq Key]

/-- C1 (the code breaks the capacity bound): on a cache of capacity 2 the calls
`insert(1)`, `insert(1)`, `insert(2)`, `insert(3)`, `insert(4)` leave three keys in the
index. The second `insert(1)` allocates a second node for key 1; when that stale node is
evicted, `erase` finds no key to remove and the index grows past the capacity. -/
theorem C1_capacity_exceeded_after_repeated_key :
    ((runFrom 2 [Op.insert 1 (some 1), Op.insert 1 (some 2), Op.insert 2 (some 3),
        Op.insert 3 (some 4), Op.insert 4 (some 5)] : Option (LRUCache Nat Nat)).map
      (fun s => s.mNodeMap.length)) = some 3 := by
  decide

/-- C2: inserting `M` pairwise distinct keys into a fresh cache of capacity `cap`, with no
`find` in between, leaves exactly the last `min M cap` pairs, most recent first: `find` of
the `i`-th key (from 0) returns null when `i + cap < M` and the `i`-th value otherwise. -/
theorem C2_eviction_order_without_finds (cap : Int) (h0 : 0 < cap) (h1 : cap ≤ INT_MAX)
    (kvs : List (Key × Option T)) (hnd : (kvs.map Prod.fst).Nodup) :
    ∃ s, runFrom cap (kvs.map (fun p => Op.insert p.1 p.2)) = some s ∧
      s.entries = kvs.reverse.take cap.toNat ∧
      ∀ i (hi : i < kvs.length), lookup s (kvs[i]).1 =
        some (if i + cap.toNat < kvs.length then none else (kvs[i]).2) := by
  obtain ⟨s, l, hrun, hcl, -, hent⟩ :=
    run_inserts_Clean (@Clean_new Key T _ _ h0) kvs hnd
      (fun p _ => by simp [mapFind])
  have hent1 : s.entries = kvs.reverse.take cap.toNat := by
    rw [hent]
    simp [LRUCache.entries, LRUCache.toList, listFrom]
  refine ⟨s, by simp [runFrom, new_eq h0 h1, hrun], hent1, ?_⟩
  intro i hi
  obtain ⟨r, hlook, hr⟩ := lookup_Clean hcl (kvs[i]).1
  rw [hlook]
  congr 1
  rw [hent1, List.take_reverse] at hr
  have hmem : ∀ d, ((kvs[i]).1, d) ∈ (kvs.drop (kvs.length - cap.toNat)).reverse →
      kvs.length - cap.toNat ≤ i ∧ d = (kvs[i]).2 := by
    intro d hd
    rw [List.mem_reverse, List.mem_drop_iff_getElem] at hd
    obtain ⟨j, hj, hje⟩ := hd
    have hk : (kvs[kvs.length - cap.toNat + j]).1 = (kvs[i]).1 := by rw [hje]
    have hij := index_eq_of_key_eq hnd (by omega) hi hk
    subst hij
    exact ⟨by omega, by rw [hje]⟩
  by_cases hc : i + cap.toNat < kvs.length
  · rw [if_pos hc]
    rcases hr with hr | hr
    · have := (hmem r hr).1
      omega
    · exact hr.1
  · rw [if_neg hc]
    have hin : ((kvs[i]).1, (kvs[i]).2) ∈ (kvs.drop (kvs.length - cap.toNat)).reverse := by
      rw [List.mem_reverse, List.mem_drop_iff_getElem]
      refine ⟨i - (kvs.length - cap.toNat), by omega, ?_⟩
      have e : kvs.length - cap.toNat + (i - (kvs.length - cap.toNat)) = i := by omega
      simp only [e]
    rcases hr with hr | hr
    · exact (hmem r hr).2
    · exact absurd hin (hr.2 _)

/-- The instance of C2 for the calls of `main`: capacity 5, keys "1" to "7". -/
theorem C2_eviction_order_witness :
    (0 : Int) < 5 ∧ (5 : Int) ≤ INT_MAX ∧ (demoPairs.map Prod.fst).Nodup ∧
      ∃ s, runFrom 5 (demoPairs.map (fun p => Op.insert p.1 p.2)) = some s ∧
        s.entries = demoPairs.reverse.take (5 : Int).toNat ∧
        ∀ i (hi : i < demoPairs.length), lookup s (demoPairs[i]).1 =
          some (if i + (5 : Int).toNat < demoPairs.length then none else (demoPairs[i]).2) :=
  ⟨by decide, by decide, by decide,
    C2_eviction_order_without_finds 5 (by decide) (by decide) demoPairs (by decide)⟩

/-- C3 (the code evicts a just-promoted key first): on a cache of capacity 2, after
`insert(1, 10)`, `insert(1, 11)`, `insert(2, 20)` the call `find(1)` returns 11 and key 2
is in the index; after one further `insert(3, 30)` key 1 is not found while key 2, which
was not touched since, is still found. The evicted tail is the stale first node of key 1,
and erasing its key removes the live entry of key 1. -/
theorem C3_promoted_key_lost_before_older_key :
    ((runFrom 2 [Op.insert 1 (some 10), Op.insert 1 (some 11), Op.insert 2 (some 20)] :
        Option (LRUCache Nat Nat)).bind
      (fun s => (find s 1).bind (fun p => (insert p.2 3 (some 30)).map
        (fun s2 => (p.1, mapFind p.2.mNodeMap 2, lookup s2 1, lookup s2 2))))) =
    some (some 11, some 2, some none, some (some 20)) := by
  decide

/-- C4: after any call sequence on a fresh cache, `find(k)` returns null or the value of
the most recent `insert(k, _)`, and null when `k` was never inserted. -/
theorem C4_find_returns_latest_value (cap : Int) (h0 : 0 < cap) (h1 : cap ≤ INT_MAX)
    (ops : List (Op Key T)) (k : Key) :
    ∃ s r, runFrom cap ops = some s ∧ lookup s k = some r ∧
      (r = none ∨ lastInsert ops k = some r) ∧ (lastInsert ops k = none → r = none) := by
  have hg : Hist
      ({ mHead := none, mTail := none, iMaxCapacity := cap.toNat, mNodeMap := [], heap := [] } :
        LRUCache Key T) (fun _ => none) := by
    intro j a hj
    simp [mapFind] at hj
  obtain ⟨s, l, hrun, hwf, hh⟩ := run_Hist (@WF_new Key T _ _ h0) ops _ hg
  obtain ⟨r, hlook, hr⟩ := lookup_of_WF hwf k
  refine ⟨s, r, by simp [runFrom, new_eq h0 h1, hrun], hlook, ?_⟩
  cases hk : mapFind s.mNodeMap k with
  | none =>
    rw [hk] at hr
    exact ⟨Or.inl hr, fun _ => hr⟩
  | some a =>
    rw [hk] at hr
    obtain ⟨d, hd, hgd⟩ := hh k a hk
    rw [hr] at hd
    have hrd : r = d := by simpa using hd
    subst hrd
    cases hl : lastInsert ops k with
    | none => simp [hl] at hgd
    | some x =>
      simp only [hl] at hgd
      exact ⟨Or.inr hgd, fun hc => by cases hc⟩

/-- The instance of C4 for capacity 2 and the calls `insert(1, 10)`, `insert(1, 11)`,
`find(1)`. -/
theorem C4_find_returns_latest_value_witness :
    (0 : Int) < 2 ∧ (2 : Int) ≤ INT_MAX ∧
      ∃ (s : LRUCache Nat Nat) (r : Option Nat),
        runFrom 2 [Op.insert 1 (some 10), Op.insert 1 (some 11), Op.find 1] = some s ∧
        lookup s 1 = some r ∧
        (r = none ∨
          lastInsert [Op.insert 1 (some 10), Op.insert 1 (some 11), Op.find 1] 1 = some r) ∧
        (lastInsert [Op.insert 1 (some 10), Op.insert 1 (some 11), Op.find 1] 1 = none →
          r = none) :=
  ⟨by decide, by decide,
    C4_find_returns_latest_value 2 (by decide) (by decide)
      [Op.insert 1 (some 10), Op.insert 1 (some 11), Op.find 1] 1⟩

/-- C5 (the code lets the index and the list drift apart): on a cache of capacity 2,
after `insert(1, 10)`, `insert(1, 11)` the index holds one key and the recency list two
nodes. The first node of key 1 stays in the list with no index entry pointing to it. -/
theorem C5_index_and_list_sizes_differ :
    ((runFrom 2 [Op.insert 1 (some 10), Op.insert 1 (some 11)] :
        Option (LRUCache Nat Nat)).map
      (fun s => (s.mNodeMap.length, s.toList.length))) = some (1, 2) := by
  decide

/-- C6 (the code lets the list grow past the capacity): on a cache of capacity 2, after
three calls `insert(1, _)` the recency list has three nodes. While the index holds fewer
keys than the capacity every `insert` allocates, also for a key that is already there. -/
theorem C6_list_longer_than_capacity :
    ((runFrom 2 [Op.insert 1 (some 10), Op.insert 1 (some 11), Op.insert 1 (some 12)] :
        Option (LRUCache Nat Nat)).map
      (fun s => s.toList.length)) = some 3 := by
  decide

/-- C7: in a reachable state, `find` of a key the index maps to node `a` returns the data
of that node, moves `a` to the front of the recency list (nothing changes when `a` is
already the head) and leaves the index as it was. -/
theorem C7_find_present_promotes (cap : Int) (s : LRUCache Key T) (hr : Reachable cap s)
    (k : Key) (a : Nat) (hk : mapFind s.mNodeMap k = some a) :
    ∃ n s1, s.heap[a]? = some n ∧ find s k = some (n.data, s1) ∧
      s1.toList = a :: s.toList.erase a ∧ (s.mHead = some a → s1 = s) ∧
      s1.mNodeMap = s.mNodeMap := by
  obtain ⟨l, hwf, -⟩ := hr.wf
  obtain ⟨n, hn, s1, hfind, hshape, hmap, -, -, -, hhead⟩ :=
    find_spec hwf.shape hk (hwf.map_mem k a hk).1
  exact ⟨n, s1, hn, hfind, by rw [toList_of_Shape hshape, toList_of_Shape hwf.shape], hhead, hmap⟩

/-- The instance of C7 for the full cache `demoFull` and its least recent key 1. -/
theorem C7_find_present_promotes_witness :
    Reachable 3 demoFull ∧ mapFind demoFull.mNodeMap 1 = some 0 ∧
      ∃ n s1, demoFull.heap[0]? = some n ∧ find demoFull 1 = some (n.data, s1) ∧
        s1.toList = 0 :: demoFull.toList.erase 0 ∧ (demoFull.mHead = some 0 → s1 = demoFull) ∧
        s1.mNodeMap = demoFull.mNodeMap :=
  ⟨⟨by decide, demoFullOps, by decide⟩, by decide,
    C7_find_present_promotes 3 demoFull ⟨by decide, demoFullOps, by decide⟩ 1 0 (by decide)⟩

/-- C8: in every state, `find` of a key that is not in the index returns null and leaves
the whole state as it was. -/
theorem C8_find_absent_no_effect (c : LRUCache Key T) (k : Key)
    (hk : mapFind c.mNodeMap k = none) : find c k = some (none, c) := by
  simp [find, hk]

/-- The instance of C8 for the cache `demoFull` and the absent key 9. -/
theorem C8_find_absent_no_effect_witness :
    mapFind demoFull.mNodeMap 9 = none ∧ find demoFull 9 = some (none, demoFull) :=
  ⟨by decide, C8_find_absent_no_effect demoFull 9 (by decide)⟩

/-- C9: in a reachable state whose index holds exactly `cap` keys, `insert` of a key that
is not in the index reuses the tail node `t`: the pairs of the list become `(k, v)`
followed by the old pairs without the last, the new node is the head, the tail is the old
tail's predecessor (the new node itself when the list had one node), and the keys of the
index are the old ones without the old tail's key, plus `k`. -/
theorem C9_insert_at_capacity_evicts_tail (cap : Int) (s : LRUCache Key T)
    (hr : Reachable cap s) (hfull : (s.mNodeMap.length : Int) = cap) (k : Key) (v : Option T)
    (_hk : mapFind s.mNodeMap k = none) :
    ∃ s1 t tn, insert s k v = some s1 ∧ s.mTail = some t ∧ s.heap[t]? = some tn ∧
      s1.entries = (k, v) :: s.entries.dropLast ∧
      s1.mHead = some t ∧
      (s.toList.length = 1 → s1.mTail = some t) ∧
      (s.toList.length ≠ 1 → s1.mTail = tn.prev ∧ tn.prev = s.toList.dropLast.getLast? ∧
        tn.prev ≠ none) ∧
      ∀ j, j ∈ s1.keys ↔ j = k ∨ (j ∈ s.keys ∧ j ≠ tn.key) := by
  obtain ⟨l, hwf, hcap⟩ := hr.wf
  have hge : s.mNodeMap.length ≥ s.iMaxCapacity := by
    rw [hcap, ← hfull]
    simp
  obtain ⟨t, tn, hlast, htn, hprev, s1, hins, hwf1, hmap, -, het, hother⟩ :=
    insert_evict_WF hwf k v hge
  have hl := List.dropLast_append_getLast? t hlast
  have htnd : t ∉ l.dropLast := (List.nodup_cons.1 hwf1.shape.nodup).1
  refine ⟨s1, t, tn, hins, by rw [hwf.shape.tail, hlast], htn, ?_, hwf1.shape.head, ?_, ?_, ?_⟩
  · obtain ⟨s2, hins2, hent⟩ := insert_evict_entries hwf k v hge
    rw [hins] at hins2
    cases hins2
    exact hent
  · intro hlen
    rw [toList_of_Shape hwf.shape, ← hl] at hlen
    have hnil : l.dropLast = [] := by
      cases hd : l.dropLast with
      | nil => rfl
      | cons x xs => rw [hd] at hlen; simp at hlen
    rw [hwf1.shape.tail, hnil]
    rfl
  · intro hlen
    rw [toList_of_Shape hwf.shape] at hlen ⊢
    cases hd : l.dropLast with
    | nil =>
      rw [← hl, hd] at hlen
      simp at hlen
    | cons x xs =>
      rw [hwf1.shape.tail, hprev, hd]
      refine ⟨by rw [List.getLast?_cons_cons], rfl, ?_⟩
      intro hc
      have := List.getLast?_eq_none_iff.1 hc
      cases this
  · intro j
    simp only [LRUCache.keys, mem_keys_iff, hmap, mapFind_mapAssign, mapFind_mapErase]
    by_cases hjk : j = k
    · simp [hjk]
    · by_cases hjt : j = tn.key
      · simp [hjk, hjt]
      · simp [hjk, hjt]

/-- The instance of C9 for the full cache `demoFull` and the new pair `(4, 40)`. -/
theorem C9_insert_at_capacity_witness :
    Reachable 3 demoFull ∧ (demoFull.mNodeMap.length : Int) = 3 ∧
      mapFind demoFull.mNodeMap 4 = none ∧
      ∃ s1 t tn, insert demoFull 4 (some 40) = some s1 ∧ demoFull.mTail = some t ∧
        demoFull.heap[t]? = some tn ∧
        s1.entries = (4, some 40) :: demoFull.entries.dropLast ∧
        s1.mHead = some t ∧
        (demoFull.toList.length = 1 → s1.mTail = some t) ∧
        (demoFull.toList.length ≠ 1 → s1.mTail = tn.prev ∧
          tn.prev = demoFull.toList.dropLast.getLast? ∧ tn.prev ≠ none) ∧
        ∀ j, j ∈ s1.keys ↔ j = 4 ∨ (j ∈ demoFull.keys ∧ j ≠ tn.key) :=
  ⟨⟨by decide, demoFullOps, by decide⟩, by decide, by decide,
    C9_insert_at_capacity_evicts_tail 3 demoFull ⟨by decide, demoFullOps, by decide⟩
      (by decide) 4 (some 40) (by decide)⟩

/-- C10: in a reachable state whose index holds fewer than `cap` keys, `insert` of a key
that is not in the index puts `(k, v)` in front of the unchanged list, adds `k` to the keys
of the index, and every key found before is still found with the same value. -/
theorem C10_insert_under_capacity_evicts_nothing (cap : Int) (s : LRUCache Key T)
    (hr : Reachable cap s) (hlt : (s.mNodeMap.length : Int) < cap) (k : Key) (v : Option T)
    (hk : mapFind s.mNodeMap k = none) :
    ∃ s1, insert s k v = some s1 ∧ s1.entries = (k, v) :: s.entries ∧
      (∀ j, j ∈ s1.keys ↔ j = k ∨ j ∈ s.keys) ∧
      ∀ j x, lookup s j = some (some x) → lookup s1 j = some (some x) := by
  obtain ⟨l, hwf, hcap⟩ := hr.wf
  have hlt1 : s.mNodeMap.length < s.iMaxCapacity := by
    rw [hcap]
    omega
  obtain ⟨s1, hins, hwf1, hmap, -, hen, hother⟩ := insert_alloc_WF hwf k v hlt1
  refine ⟨s1, hins, ?_, ?_, ?_⟩
  · obtain ⟨s2, hins2, hent⟩ := insert_alloc_entries hwf k v hlt1
    rw [hins] at hins2
    cases hins2
    exact hent
  · intro j
    simp only [LRUCache.keys, mem_keys_iff, hmap, mapFind_mapAssign]
    by_cases hjk : j = k
    · simp [hjk]
    · simp [hjk]
  · intro j x hj
    obtain ⟨r, hlook, hres⟩ := lookup_of_WF hwf j
    rw [hlook] at hj
    cases hj
    obtain ⟨r1, hlook1, hres1⟩ := lookup_of_WF hwf1 j
    rw [hlook1]
    cases hm : mapFind s.mNodeMap j with
    | none =>
      rw [hm] at hres
      cases hres
    | some a =>
      rw [hm] at hres
      have hjk : j ≠ k := by
        intro hc
        rw [hc, hk] at hm
        cases hm
      rw [hmap, mapFind_mapAssign, if_neg hjk, hm] at hres1
      have hlt2 := Seg_lt hwf.shape.seg (hwf.map_mem j a hm).1
      simp only [] at hres1 hres
      rw [hother a hlt2, hres] at hres1
      simp at hres1
      rw [hres1]

/-- The instance of C10 for the one-entry cache `demoSmall` and the new pair `(2, 20)`. -/
theorem C10_insert_under_capacity_witness :
    Reachable 3 demoSmall ∧ (demoSmall.mNodeMap.length : Int) < 3 ∧
      mapFind demoSmall.mNodeMap 2 = none ∧
      ∃ s1, insert demoSmall 2 (some 20) = some s1 ∧
        s1.entries = (2, some 20) :: demoSmall.entries ∧
        (∀ j, j ∈ s1.keys ↔ j = 2 ∨ j ∈ demoSmall.keys) ∧
        ∀ j x, lookup demoSmall j = some (some x) → lookup s1 j = some (some x) :=
  ⟨⟨by decide, [Op.insert 1 (some 10)], by decide⟩, by decide, by decide,
    C10_insert_under_capacity_evicts_nothing 3 demoSmall
      ⟨by decide, [Op.insert 1 (some 10)], by decide⟩ (by decide) 2 (some 20) (by decide)⟩

/-- C11: in a reachable state a second `find(k)` right after the first returns the same
handle and leaves exactly the state the first one left. -/
theorem C11_find_twice_same_as_once (cap : Int) (s : LRUCache Key T) (hr : Reachable cap s)
    (k : Key) : ∃ r s1, find s k = some (r, s1) ∧ find s1 k = some (r, s1) := by
  obtain ⟨l, hwf, -⟩ := hr.wf
  cases hk : mapFind s.mNodeMap k with
  | none => exact ⟨none, s, find_absent hk, find_absent hk⟩
  | some a =>
    obtain ⟨n, s1, hn, -, hfind, hwf1, -, hmap, -, -, hent, -⟩ := find_present_WF hwf hk
    have hk1 : mapFind s1.mNodeMap k = some a := by rw [hmap, hk]
    obtain ⟨n1, s2, hn1, -, hfind1, -, -, -, -, -, -, hhead⟩ := find_present_WF hwf1 hk1
    have hs2 : s2 = s1 := hhead hwf1.shape.head
    have hdata : n1.data = n.data := by
      have := hent a
      simp [entryAt, hn, hn1] at this
      exact this.2
    refine ⟨n.data, s1, hfind, ?_⟩
    rw [hfind1, hs2, hdata]

/-- The instance of C11 for the full cache `demoFull` and its least recent key 1. -/
theorem C11_find_twice_witness :
    Reachable 3 demoFull ∧
      ∃ r s1, find demoFull 1 = some (r, s1) ∧ find s1 1 = some (r, s1) :=
  ⟨⟨by decide, demoFullOps, by decide⟩,
    C11_find_twice_same_as_once 3 demoFull ⟨by decide, demoFullOps, by decide⟩ 1⟩

/-- C12, the counterexample: on the reachable cache `demoSmall` (capacity 3, one key in
the index) `insert` of the key that is already there leaves one key, not two. -/
theorem C12_repeated_key_keeps_count :
    Reachable 3 demoSmall ∧ demoSmall.mNodeMap.length = 1 ∧ (1 : Int) < 3 ∧
      (insert demoSmall 1 (some 11)).map (fun s1 => s1.mNodeMap.length) = some 1 :=
  ⟨⟨by decide, [Op.insert 1 (some 10)], by decide⟩, by decide, by decide, by decide⟩

/-- C12, amended: in a reachable state with `c` keys in the index, `find` leaves `c` keys;
`insert` of a key that is not in the index leaves `c + 1` keys when `c` is below the
capacity; and it leaves `c` keys when `c` equals the capacity, provided the state was
reached by inserts of keys that were not in the index. -/
theorem C12_entry_count_transitions (cap : Int) (s : LRUCache Key T) (hr : Reachable cap s) :
    (∀ k, ∃ r s1, find s k = some (r, s1) ∧ s1.mNodeMap.length = s.mNodeMap.length) ∧
    (∀ k v, mapFind s.mNodeMap k = none → (s.mNodeMap.length : Int) < cap →
      ∃ s1, insert s k v = some s1 ∧ s1.mNodeMap.length = s.mNodeMap.length + 1) ∧
    (FreshReachable cap s → ∀ k v, mapFind s.mNodeMap k = none →
      (s.mNodeMap.length : Int) = cap →
      ∃ s1, insert s k v = some s1 ∧ s1.mNodeMap.length = s.mNodeMap.length) := by
  obtain ⟨l, hwf, hcap⟩ := hr.wf
  refine ⟨?_, ?_, ?_⟩
  · intro k
    obtain ⟨r, s1, l1, hfind, -, -, hmap, -⟩ := find_WF hwf k
    exact ⟨r, s1, hfind, by rw [hmap]⟩
  · intro k v hk hlt
    have hlt1 : s.mNodeMap.length < s.iMaxCapacity := by
      rw [hcap]
      omega
    obtain ⟨s1, hins, -, hmap, -⟩ := insert_alloc_WF hwf k v hlt1
    exact ⟨s1, hins, by rw [hmap, length_mapAssign, if_pos hk]⟩
  · intro hfr k v hk hfull
    obtain ⟨l1, hcl, -⟩ := hfr.clean
    obtain ⟨s1, l2, hins, -, hlen⟩ := insert_Clean_full hcl k v hk
    refine ⟨s1, hins, ?_⟩
    have : s.mNodeMap.length = s.iMaxCapacity := by
      rw [hcap]
      omega
    rw [hlen, ← this]
    simp

/-- The instance of C12 (amended) for the full cache `demoFull`. -/
theorem C12_entry_count_transitions_witness :
    Reachable 3 demoFull ∧
      ((∀ k, ∃ r s1, find demoFull k = some (r, s1) ∧
          s1.mNodeMap.length = demoFull.mNodeMap.length) ∧
       (∀ k v, mapFind demoFull.mNodeMap k = none → (demoFull.mNodeMap.length : Int) < 3 →
          ∃ s1, insert demoFull k v = some s1 ∧
            s1.mNodeMap.length = demoFull.mNodeMap.length + 1) ∧
       (FreshReachable 3 demoFull → ∀ k v, mapFind demoFull.mNodeMap k = none →
          (demoFull.mNodeMap.length : Int) = 3 →
          ∃ s1, insert demoFull k v = some s1 ∧
            s1.mNodeMap.length = demoFull.mNodeMap.length)) :=
  ⟨⟨by decide, demoFullOps, by decide⟩,
    C12_entry_count_transitions 3 demoFull ⟨by decide, demoFullOps, by decide⟩⟩

/-- C13: after every call sequence on a fresh cache, `mHead` is null exactly when `mTail`
is null, exactly when the index is empty. -/
theorem C13_empty_cache_characterisation (cap : Int) (h0 : 0 < cap) (h1 : cap ≤ INT_MAX)
    (ops : List (Op Key T)) :
    ∃ s, runFrom cap ops = some s ∧ (s.mHead = none ↔ s.mTail = none) ∧
      (s.mTail = none ↔ s.mNodeMap = []) := by
  obtain ⟨s, l, hrun, ht, -⟩ := runFrom_Tight h0 h1 ops
  have hhead : s.mHead = none ↔ l = [] := by
    rw [ht.wf.shape.head]
    cases l <;> simp
  have htail : s.mTail = none ↔ l = [] := by
    rw [ht.wf.shape.tail]
    exact List.getLast?_eq_none_iff
  have hmap : s.mNodeMap = [] ↔ l = [] := by
    constructor
    · intro hm
      by_contra hl
      exact ht.nonempty hl hm
    · intro hl
      by_contra hm
      have hpos : 0 < s.mNodeMap.length := List.length_pos.2 hm
      obtain ⟨k, a, hk⟩ := exists_mapFind_of_length_pos hpos
      have := (ht.wf.map_mem k a hk).1
      rw [hl] at this
      simp at this
  exact ⟨s, hrun, by rw [hhead, htail], by rw [htail, hmap]⟩

/-- The instance of C13 for capacity 2 and a call sequence with a repeated key. -/
theorem C13_empty_cache_witness :
    (0 : Int) < 2 ∧ (2 : Int) ≤ INT_MAX ∧
      ∃ s, runFrom 2 demoRepeatOps = some s ∧ (s.mHead = none ↔ s.mTail = none) ∧
        (s.mTail = none ↔ s.mNodeMap = []) :=
  ⟨by decide, by decide, C13_empty_cache_characterisation 2 (by decide) (by decide) demoRepeatOps⟩

/-- C14: the constructor succeeds exactly for a positive capacity, and the cache it builds
is empty: `mHead` and `mTail` are null, the index has no key, and `find` of every key
returns null and changes nothing. -/
theorem C14_construction_contract (cap : Int) :
    ((LRUCache.new cap : Option (LRUCache Key T)).isSome ↔ 0 < cap) ∧
    ((LRUCache.new cap : Option (LRUCache Key T)) = none ↔ cap ≤ 0) ∧
    ∀ s : LRUCache Key T, LRUCache.new cap = some s →
      s.mHead = none ∧ s.mTail = none ∧ s.mNodeMap = [] ∧ s.toList = [] ∧
      ∀ k, find s k = some (none, s) := by
  by_cases h : 0 < cap
  · have hnew : (LRUCache.new cap : Option (LRUCache Key T)) =
        some { mHead := none, mTail := none, iMaxCapacity := (cap % 2 ^ 32).toNat,
               mNodeMap := [], heap := [] } := by
      simp [LRUCache.new, h]
    refine ⟨by simp [hnew, h], by simp [hnew]; omega, ?_⟩
    intro s hs
    rw [hnew] at hs
    cases hs
    exact ⟨rfl, rfl, rfl, rfl, fun k => by simp [find, mapFind]⟩
  · have hnew : (LRUCache.new cap : Option (LRUCache Key T)) = none := by
      simp [LRUCache.new, h]
    refine ⟨by simp [hnew, h], by simp [hnew]; omega, ?_⟩
    intro s hs
    rw [hnew] at hs
    cases hs

/-- The instance of C14 for the capacity 5 of `main`. -/
theorem C14_construction_witness :
    ((LRUCache.new 5 : Option (LRUCache Nat Nat)).isSome ↔ (0 : Int) < 5) ∧
    ((LRUCache.new 5 : Option (LRUCache Nat Nat)) = none ↔ (5 : Int) ≤ 0) ∧
    ∀ s : LRUCache Nat Nat, LRUCache.new 5 = some s →
      s.mHead = none ∧ s.mTail = none ∧ s.mNodeMap = [] ∧ s.toList = [] ∧
      ∀ k, find s k = some (none, s) :=
  C14_construction_contract 5

/-- C16: after every call sequence on a fresh cache the walk along `next` from `mHead`
ends at a null `next` (more fuel gives the same walk), visits every allocated node exactly
once and ends at `mTail`; `mHead.prev` and `mTail.next` are null; the successor of a
visited node points back to it; and the walk along `prev` from `mTail` is the reverse. -/
theorem C16_recency_list_integrity (cap : Int) (h0 : 0 < cap) (h1 : cap ≤ INT_MAX)
    (ops : List (Op Key T)) :
    ∃ s, runFrom cap ops = some s ∧
      s.toList.Nodup ∧ (∀ a, a ∈ s.toList ↔ a < s.heap.length) ∧
      (∀ fuel, s.heap.length ≤ fuel → listFrom s.heap fuel s.mHead = s.toList) ∧
      s.toList.head? = s.mHead ∧ s.toList.getLast? = s.mTail ∧
      (∀ h n, s.mHead = some h → s.heap[h]? = some n → n.prev = none) ∧
      (∀ t n, s.mTail = some t → s.heap[t]? = some n → n.next = none) ∧
      (∀ a n b, a ∈ s.toList → s.heap[a]? = some n → n.next = some b →
        b ∈ s.toList ∧ ∃ m, s.heap[b]? = some m ∧ m.prev = some a) ∧
      s.toListRev = s.toList.reverse := by
  obtain ⟨s, l, hrun, ht, -⟩ := runFrom_Tight h0 h1 ops
  have hs := ht.wf.shape
  have hl := toList_of_Shape hs
  refine ⟨s, hrun, ?_⟩
  rw [hl]
  refine ⟨hs.nodup, mem_toList_iff_of_Tight ht, ?_, hs.head.symm, hs.tail.symm, ?_, ?_, ?_,
    toListRev_of_Shape hs⟩
  · intro fuel hf
    rw [hs.head, ← hd_none_eq_head?]
    exact listFrom_of_Seg hs.seg (by rw [ht.cover]; exact hf)
  · intro h n hh hn
    rw [hs.head] at hh
    cases l with
    | nil => simp at hh
    | cons x l =>
      simp at hh
      subst hh
      exact Seg_head_prev hs.seg hn
  · intro t n htl hn
    rw [hs.tail] at htl
    exact Seg_last_next hs.seg htl hn
  · intro a n b ha hn hb
    exact Seg_next_prev hs.seg ha hn hb

/-- The instance of C16 for capacity 2 and a call sequence with a repeated key. -/
theorem C16_recency_list_witness :
    (0 : Int) < 2 ∧ (2 : Int) ≤ INT_MAX ∧
      ∃ s, runFrom 2 demoRepeatOps = some s ∧
        s.toList.Nodup ∧ (∀ a, a ∈ s.toList ↔ a < s.heap.length) ∧
        (∀ fuel, s.heap.length ≤ fuel → listFrom s.heap fuel s.mHead = s.toList) ∧
        s.toList.head? = s.mHead ∧ s.toList.getLast? = s.mTail ∧
        (∀ h n, s.mHead = some h → s.heap[h]? = some n → n.prev = none) ∧
        (∀ t n, s.mTail = some t → s.heap[t]? = some n → n.next = none) ∧
        (∀ a n b, a ∈ s.toList → s.heap[a]? = some n → n.next = some b →
          b ∈ s.toList ∧ ∃ m, s.heap[b]? = some m ∧ m.prev = some a) ∧
        s.toListRev = s.toList.reverse :=
  ⟨by decide, by decide, C16_recency_list_integrity 2 (by decide) (by decide) demoRepeatOps⟩

/-- C17: after every call sequence on a fresh cache no call follows a null or dangling
link: every `insert` and every `find` is defined; when the index is at capacity `mTail`
points to a list node and `evict` is defined; and for a node that `find` moves, `mHead`,
`node->prev` and (unless it is the tail) `node->next` point to list nodes. -/
theorem C17_no_null_link_followed (cap : Int) (h0 : 0 < cap) (h1 : cap ≤ INT_MAX)
    (ops : List (Op Key T)) :
    ∃ s, runFrom cap ops = some s ∧
      (∀ k v, ∃ s1, insert s k v = some s1) ∧
      (∀ k, ∃ r s1, find s k = some (r, s1)) ∧
      (s.mNodeMap.length ≥ s.iMaxCapacity →
        ∃ t, s.mTail = some t ∧ t ∈ s.toList ∧ ∃ r, evict s = some r) ∧
      (∀ k a, mapFind s.mNodeMap k = some a → ∃ n, s.heap[a]? = some n ∧ a ∈ s.toList ∧
        (s.mHead ≠ some a →
          (∃ h, s.mHead = some h ∧ h ∈ s.toList) ∧
          (∃ p, n.prev = some p ∧ p ∈ s.toList) ∧
          (s.mTail ≠ some a → ∃ b, n.next = some b ∧ b ∈ s.toList))) := by
  obtain ⟨s, l, hrun, ht, -⟩ := runFrom_Tight h0 h1 ops
  have hwf := ht.wf
  have hl := toList_of_Shape hwf.shape
  refine ⟨s, hrun, ?_, ?_, ?_, ?_⟩
  · intro k v
    obtain ⟨s1, l1, hins, -⟩ := insert_WF hwf k v
    exact ⟨s1, hins⟩
  · intro k
    obtain ⟨r, s1, l1, hfind, -⟩ := find_WF hwf k
    exact ⟨r, s1, hfind⟩
  · intro hge
    rw [hl]
    exact evict_some hwf.shape (hwf.ne_nil_of_full hge)
  · intro k a hk
    obtain ⟨hal, -⟩ := hwf.map_mem k a hk
    obtain ⟨n, hn⟩ := Seg_mem hwf.shape.seg hal
    rw [hl]
    refine ⟨n, hn, hal, fun hh => ?_⟩
    obtain ⟨hprev, hnext⟩ := Shape_links hwf.shape hal hn
    refine ⟨?_, hprev hh, hnext⟩
    cases hl1 : l with
    | nil => rw [hl1] at hal; simp at hal
    | cons x xs => exact ⟨x, by rw [hwf.shape.head, hl1]; rfl, by simp⟩

/-- The instance of C17 for capacity 2 and a call sequence with a repeated key. -/
theorem C17_no_null_link_witness :
    (0 : Int) < 2 ∧ (2 : Int) ≤ INT_MAX ∧
      ∃ s, runFrom 2 demoRepeatOps = some s ∧
        (∀ k v, ∃ s1, insert s k v = some s1) ∧
        (∀ k, ∃ r s1, find s k = some (r, s1)) ∧
        (s.mNodeMap.length ≥ s.iMaxCapacity →
          ∃ t, s.mTail = some t ∧ t ∈ s.toList ∧ ∃ r, evict s = some r) ∧
        (∀ k a, mapFind s.mNodeMap k = some a → ∃ n, s.heap[a]? = some n ∧ a ∈ s.toList ∧
          (s.mHead ≠ some a →
            (∃ h, s.mHead = some h ∧ h ∈ s.toList) ∧
            (∃ p, n.prev = some p ∧ p ∈ s.toList) ∧
            (s.mTail ≠ some a → ∃ b, n.next = some b ∧ b ∈ s.toList))) :=
  ⟨by decide, by decide, C17_no_null_link_followed 2 (by decide) (by decide) demoRepeatOps⟩

/-- C18: along a call sequence in which every `insert` uses a key that is not in the index
at the time of the call, after each call (after every prefix `ops`) the keys of the list
nodes are pairwise distinct, every list node's key is mapped by the index to that node,
every index entry points to a list node, and the index has as many keys as the list has
nodes, at most the capacity. -/
theorem C18_invariants_with_new_keys (cap : Int) (h0 : 0 < cap) (h1 : cap ≤ INT_MAX)
    (ops ops1 : List (Op Key T)) (hf : freshFrom cap (ops ++ ops1) = true) :
    ∃ s, runFrom cap ops = some s ∧
      (s.entries.map Prod.fst).Nodup ∧ s.entries.length = s.toList.length ∧
      (∀ a ∈ s.toList, ∃ n, s.heap[a]? = some n ∧ mapFind s.mNodeMap n.key = some a) ∧
      (∀ k a, mapFind s.mNodeMap k = some a → a ∈ s.toList) ∧
      s.mNodeMap.length = s.toList.length ∧ (s.mNodeMap.length : Int) ≤ cap := by
  obtain ⟨s, l, hrun, hcl, hcap⟩ := runFrom_Clean h0 h1 ops (freshFrom_append hf)
  have hl := toList_of_Shape hcl.wf.shape
  refine ⟨s, hrun, nodup_keys_of_Clean hcl, ?_⟩
  rw [hl]
  refine ⟨length_entries_of_WF hcl.wf, ?_, fun k a hk => (hcl.wf.map_mem k a hk).1, hcl.size, ?_⟩
  · intro a ha
    obtain ⟨n, hn⟩ := Seg_mem hcl.wf.shape.seg ha
    have := hcl.key_inj ha (x := (n.key, n.data)) (by simp [entryAt, hn])
    exact ⟨n, hn, this⟩
  · have := hcl.bound
    rw [hcap] at this
    omega

/-- The instance of C18 for capacity 3 and five calls, seen after the first three. -/
theorem C18_invariants_with_new_keys_witness :
    (0 : Int) < 3 ∧ (3 : Int) ≤ INT_MAX ∧
      freshFrom 3 ([Op.insert 1 (some 10), Op.insert 2 (some 20), Op.find 1] ++
        [Op.insert 3 (some 30), Op.insert 4 (some 40)]) = true ∧
      ∃ s : LRUCache Nat Nat,
        runFrom 3 [Op.insert 1 (some 10), Op.insert 2 (some 20), Op.find 1] = some s ∧
        (s.entries.map Prod.fst).Nodup ∧ s.entries.length = s.toList.length ∧
        (∀ a ∈ s.toList, ∃ n, s.heap[a]? = some n ∧ mapFind s.mNodeMap n.key = some a) ∧
        (∀ k a, mapFind s.mNodeMap k = some a → a ∈ s.toList) ∧
        s.mNodeMap.length = s.toList.length ∧ (s.mNodeMap.length : Int) ≤ 3 :=
  ⟨by decide, by decide, by decide,
    C18_invariants_with_new_keys 3 (by decide) (by decide)
      [Op.insert 1 (some 10), Op.insert 2 (some 20), Op.find 1]
      [Op.insert 3 (some 30), Op.insert 4 (some 40)] (by decide)⟩

/-- C19: along a call sequence in which every `insert` uses a key that is not in the index
at the time of the call, the pointer-based cache and the reference model show the same:
the same handle for every `find` and, after each call, the same list of pairs. -/
theorem C19_refines_list_model (cap : Int) (h0 : 0 < cap) (h1 : cap ≤ INT_MAX)
    (ops : List (Op Key T)) (hf : freshFrom cap ops = true) :
    ∃ c : LRUCache Key T, LRUCache.new cap = some c ∧
      runTrace c ops = some (modelTrace cap.toNat [] ops) := by
  refine ⟨_, new_eq h0 h1, ?_⟩
  simp only [freshFrom, new_eq h0 h1] at hf
  exact runTrace_Clean (@Clean_new Key T _ _ h0) ops hf

/-- The instance of C19 for capacity 2 and five calls. -/
theorem C19_refines_list_model_witness :
    (0 : Int) < 2 ∧ (2 : Int) ≤ INT_MAX ∧
      freshFrom 2 [Op.insert 1 (some 10), Op.insert 2 (some 20), Op.find 1,
        Op.insert 3 (some 30), Op.find 2] = true ∧
      ∃ c : LRUCache Nat Nat, LRUCache.new 2 = some c ∧
        runTrace c [Op.insert 1 (some 10), Op.insert 2 (some 20), Op.find 1,
          Op.insert 3 (some 30), Op.find 2] =
        some (modelTrace (2 : Int).toNat [] [Op.insert 1 (some 10), Op.insert 2 (some 20),
          Op.find 1, Op.insert 3 (some 30), Op.find 2]) :=
  ⟨by decide, by decide, by decide,
    C19_refines_list_model 2 (by decide) (by decide)
      [Op.insert 1 (some 10), Op.insert 2 (some 20), Op.find 1, Op.insert 3 (some 30),
        Op.find 2] (by decide)⟩

/-- C20: after every call sequence on a fresh cache every index entry `k -> a` points to a
node of the recency list whose key is `k`, two keys never share a node, and the list has
at least as many nodes as the index has keys. -/
theorem C20_index_points_to_live_nodes (cap : Int) (h0 : 0 < cap) (h1 : cap ≤ INT_MAX)
    (ops : List (Op Key T)) :
    ∃ s, runFrom cap ops = some s ∧
      (∀ k a, mapFind s.mNodeMap k = some a →
        a ∈ s.toList ∧ ∃ n, s.heap[a]? = some n ∧ n.key = k) ∧
      (∀ k j a, mapFind s.mNodeMap k = some a → mapFind s.mNodeMap j = some a → k = j) ∧
      s.mNodeMap.length ≤ s.toList.length := by
  obtain ⟨s, l, hrun, hwf, -⟩ := runFrom_WF h0 h1 ops
  have hl := toList_of_Shape hwf.shape
  have hmem : ∀ k a, mapFind s.mNodeMap k = some a →
      a ∈ l ∧ ∃ n, s.heap[a]? = some n ∧ n.key = k := by
    intro k a hk
    obtain ⟨hal, d, hd⟩ := hwf.map_mem k a hk
    obtain ⟨n, hn⟩ := Seg_mem hwf.shape.seg hal
    refine ⟨hal, n, hn, ?_⟩
    simp [entryAt, hn] at hd
    exact hd.1
  refine ⟨s, hrun, ?_⟩
  rw [hl]
  refine ⟨hmem, ?_, index_le_list hwf⟩
  intro k j a hk hj
  obtain ⟨-, n, hn, hnk⟩ := hmem k a hk
  obtain ⟨-, n1, hn1, hnj⟩ := hmem j a hj
  rw [hn] at hn1
  cases hn1
  rw [← hnk, ← hnj]

/-- The instance of C20 for capacity 2 and a call sequence with a repeated key. -/
theorem C20_index_points_witness :
    (0 : Int) < 2 ∧ (2 : Int) ≤ INT_MAX ∧
      ∃ s, runFrom 2 demoRepeatOps = some s ∧
        (∀ k a, mapFind s.mNodeMap k = some a →
          a ∈ s.toList ∧ ∃ n, s.heap[a]? = some n ∧ n.key = k) ∧
        (∀ k j a, mapFind s.mNodeMap k = some a → mapFind s.mNodeMap j = some a → k = j) ∧
        s.mNodeMap.length ≤ s.toList.length :=
  ⟨by decide, by decide, C20_index_points_to_live_nodes 2 (by decide) (by decide) demoRepeatOps⟩

end

end LRU
